import Mathlib

/-!
Verification of the X-Bookmarks incremental analysis pipeline.

This file shallowly embeds the pipeline components of the repository
(stub content resolver, fetch target loop, URL enricher, batch analyzer,
digest formatter) as executable Lean definitions and proves the spec's
claims about them.

Modelling conventions:
- JavaScript strings are modelled as `Str := List Char`; `String.length`
  is modelled by list length.
- External collaborators (the bird CLI, the network, the summarization
  service) are modelled as explicit oracle functions passed as arguments;
  a `none` / `failed` value models every failure mode (non-zero exit,
  timeout, malformed output), since the embedded code treats all of them
  through the same rejection path.
- Promise-based sequencing is modelled by ordinary function composition:
  all embedded functions are total, which is the shallow counterpart of
  "the component itself never raises".
-/

abbrev Str := List Char

/-- A whitespace character as used by JavaScript `trim` (the characters
that actually occur in the embedded texts). -/
def isWs (c : Char) : Bool :=
  c = ' ' || c = '\n' || c = '\t' || c = '\r'

/-- JS `String.prototype.trimStart`. -/
def trimStartS (s : Str) : Str := s.dropWhile isWs

/-- JS `String.prototype.trimEnd`. -/
def trimEndS (s : Str) : Str := (s.reverse.dropWhile isWs).reverse

/-- JS `String.prototype.trim`. -/
def trimS (s : Str) : Str := trimEndS (trimStartS s)

/-- JS falsy test for a numeric field: `0` is falsy, so `a || b` on
numbers yields `b` when `a = 0`. -/
def jsOrNat (a b : Nat) : Nat := if a = 0 then b else a

/-- JS `a || b` where `a` is an optional numeric field: `undefined` and
`0` are both falsy. -/
def jsOrOptNat (a b : Option Nat) : Option Nat :=
  match a with
  | some n => if n = 0 then b else some n
  | none => b

/-- JS `a || b` on strings: the empty string is falsy. -/
def jsOrStr (a b : Str) : Str := if a.isEmpty then b else a

/- ## Data model (src/discord-bot/src/types/bird-cli.ts) -/

structure BirdAuthor where
  username : Str
  name : Str
deriving DecidableEq

structure BirdArticle where
  title : Str
  previewText : Str
deriving DecidableEq

structure UrlEntity where
  url : Str
  expandedUrl : Str
  displayUrl : Str
deriving DecidableEq

/-- One fetched content record.  Presentation-only fields that none of
the embedded functions read (`media`, `lang`, `inReplyToStatusId`,
`quotedTweet`) are omitted; an absent/empty `urls` entity array is
modelled as `[]` (the code treats both alike), an absent `viewCount`
as `none`. -/
structure BirdBookmark where
  id : Str
  text : Str
  createdAt : Str
  replyCount : Nat
  retweetCount : Nat
  likeCount : Nat
  viewCount : Option Nat
  author : BirdAuthor
  urls : List UrlEntity
  article : Option BirdArticle
deriving DecidableEq

/- ## Stub Content Resolver (BookmarkFetcher.refetchFullContent, src/unnamed/part_004) -/

/-- JS `\w` character class: `[A-Za-z0-9_]`. -/
def isWordChar (c : Char) : Bool := c.isAlphanum || c = '_'

/-- Test of the stub pattern `/^https?:\/\/t\.co\/\w+\s*$/` against
`text.trim()`.  Since the subject is trimmed first, the trailing `\s*`
is vacuous and the trimmed text must be the literal scheme-and-host
part followed by one or more word characters. -/
def isStubText (t : Str) : Bool :=
  let s := trimS t
  let httpsPre : Str := "https://t.co/".toList
  let httpPre : Str := "http://t.co/".toList
  if httpsPre.isPrefixOf s then
    let r := s.drop httpsPre.length
    !r.isEmpty && r.all isWordChar
  else if httpPre.isPrefixOf s then
    let r := s.drop httpPre.length
    !r.isEmpty && r.all isWordChar
  else false

/-- Engagement merge of a successfully re-fetched stub: the full-content
record wins for text/article, the original list-fetch record's counters
win when truthy (JS `stub.likeCount || result.value.likeCount`). -/
def mergeStub (stub v : BirdBookmark) : BirdBookmark :=
  { v with
    likeCount := jsOrNat stub.likeCount v.likeCount
    retweetCount := jsOrNat stub.retweetCount v.retweetCount
    replyCount := jsOrNat stub.replyCount v.replyCount
    viewCount := jsOrOptNat stub.viewCount v.viewCount }

/-- JS `Map.set`: overwrite the binding of `k` in place, or append. -/
def setKey {β : Type} (m : List (Str × β)) (k : Str) (v : β) : List (Str × β) :=
  match m with
  | [] => [(k, v)]
  | (k', v') :: rest => if k' = k then (k', v) :: rest else (k', v') :: setKey rest k v

/-- JS `Map.get`. -/
def findVal {β : Type} (m : List (Str × β)) (k : Str) : Option β :=
  match m with
  | [] => none
  | (k', v') :: rest => if k' = k then some v' else findVal rest k

/-- The `fullContentMap` of `refetchFullContent`: re-fetch each stub
strictly sequentially (`fetchById` models `fetchBookmarkById`, with
`none` covering every per-item failure: non-zero exit, parse failure,
spawn failure and the 15 s timeout) and record the merged record for
each fulfilled lookup. -/
def buildStubMap (stubs : List BirdBookmark) (fetchById : Str → Option BirdBookmark) :
    List (Str × BirdBookmark) :=
  stubs.foldl
    (fun m s =>
      match fetchById s.id with
      | some v => setKey m s.id (mergeStub s v)
      | none => m)
    []

/-- `BookmarkFetcher.refetchFullContent`: detect bare-t.co stub
bookmarks, re-fetch them individually, and splice the merged records
back into the original list by id.  Total: a failed lookup leaves its
stub in place, it never raises. -/
def refetchFullContent (bookmarks : List BirdBookmark)
    (fetchById : Str → Option BirdBookmark) : List BirdBookmark :=
  let stubs := bookmarks.filter (fun b => isStubText b.text)
  if stubs.isEmpty then bookmarks
  else
    let m := buildStubMap stubs fetchById
    bookmarks.map (fun b => (findVal m b.id).getD b)

example :
    isStubText ("https://t.co/AbC123 ".toList) = true := by decide

example :
    isStubText ("look https://t.co/AbC123".toList) = false := by decide

example :
    isStubText ("https://t.co/".toList) = false := by decide

/- ## Helper lemmas for the stub resolver -/

theorem findVal_setKey {β : Type} (m : List (Str × β)) (k k' : Str) (v : β) :
    findVal (setKey m k v) k' = if k = k' then some v else findVal m k' := by
  induction m with
  | nil =>
    by_cases h : k = k' <;> simp [setKey, findVal, h]
  | cons hd tl ih =>
    obtain ⟨a, b⟩ := hd
    simp only [setKey]
    by_cases hak : a = k
    · subst hak
      by_cases h : a = k' <;> simp [findVal, h]
    · by_cases h : a = k'
      · subst h
        have hk : ¬ k = a := fun hh => hak hh.symm
        simp [findVal, hak, hk]
      · simp [findVal, hak, h, ih]

/-- Processing stubs none of which installs the key `k` leaves `k`'s
binding untouched. -/
theorem buildStubMap_fold_skip (f : Str → Option BirdBookmark) (k : Str) :
    ∀ (stubs : List BirdBookmark) (m : List (Str × BirdBookmark)),
      (∀ s ∈ stubs, s.id = k → f s.id = none) →
      findVal
        (stubs.foldl
          (fun m s =>
            match f s.id with
            | some v => setKey m s.id (mergeStub s v)
            | none => m)
          m) k = findVal m k := by
  intro stubs
  induction stubs with
  | nil => intro m _; rfl
  | cons s rest ih =>
    intro m h
    simp only [List.foldl_cons]
    have hrest : ∀ s' ∈ rest, s'.id = k → f s'.id = none := by
      intro s' hs' hk; exact h s' (List.mem_cons_of_mem _ hs') hk
    rcases hv : f s.id with _ | v
    · simpa [hv] using ih m hrest
    · have hk : s.id ≠ k := by
        intro hk
        have := h s (List.mem_cons_self _ _) hk
        simp [this] at hv
      rw [ih _ hrest, findVal_setKey]
      simp [hk]

theorem buildStubMap_skip (stubs : List BirdBookmark) (f : Str → Option BirdBookmark)
    (k : Str) (h : ∀ s ∈ stubs, s.id = k → f s.id = none) :
    findVal (buildStubMap stubs f) k = none := by
  rw [buildStubMap, buildStubMap_fold_skip f k stubs [] h]; rfl

/-- When the id `k` belongs to a unique stub `s` whose lookup succeeded,
the map binds `k` to the merged record. -/
theorem buildStubMap_fold_hit (f : Str → Option BirdBookmark) (k : Str) :
    ∀ (stubs : List BirdBookmark) (m : List (Str × BirdBookmark)) (s : BirdBookmark)
      (v : BirdBookmark),
      (stubs.map (fun b => b.id)).Nodup → s ∈ stubs → s.id = k → f k = some v →
      findVal
        (stubs.foldl
          (fun m s =>
            match f s.id with
            | some v => setKey m s.id (mergeStub s v)
            | none => m)
          m) k = some (mergeStub s v) := by
  intro stubs
  induction stubs with
  | nil => intro m s v _ hmem; cases hmem
  | cons t rest ih =>
    intro m s v hnd hmem hk hf
    simp only [List.map_cons, List.nodup_cons] at hnd
    obtain ⟨hhead, hnd'⟩ := hnd
    simp only [List.foldl_cons]
    rcases List.mem_cons.mp hmem with rfl | hmem'
    · -- the head is the unique stub with id `k`
      subst hk
      have hskip : ∀ s' ∈ rest, s'.id = s.id → f s'.id = none := by
        intro s' hs' hk'
        exact absurd (hk' ▸ List.mem_map_of_mem (fun b => b.id) hs') hhead
      rw [buildStubMap_fold_skip f s.id rest _ hskip]
      simp [hf, findVal_setKey]
    · -- the unique stub is in the tail; the head does not touch `k`
      rcases hv : f t.id with _ | v'
      · simp only [hv]
        exact ih m s v hnd' hmem' hk hf
      · simp only [hv]
        exact ih _ s v hnd' hmem' hk hf

/-- The key set of the stub map: every bound id comes from a stub whose
lookup succeeded. -/
theorem buildStubMap_fold_mem (f : Str → Option BirdBookmark) (k : Str) :
    ∀ (stubs : List BirdBookmark) (m : List (Str × BirdBookmark)),
      findVal
        (stubs.foldl
          (fun m s =>
            match f s.id with
            | some v => setKey m s.id (mergeStub s v)
            | none => m)
          m) k ≠ none →
      (∃ s ∈ stubs, s.id = k ∧ f s.id ≠ none) ∨ findVal m k ≠ none := by
  intro stubs
  induction stubs with
  | nil => intro m h; exact Or.inr h
  | cons t rest ih =>
    intro m h
    simp only [List.foldl_cons] at h
    rcases hv : f t.id with _ | v
    · rw [hv] at h
      rcases ih m h with ⟨s, hs, hk, hf⟩ | hm
      · exact Or.inl ⟨s, List.mem_cons_of_mem _ hs, hk, hf⟩
      · exact Or.inr hm
    · rw [hv] at h
      rcases ih _ h with ⟨s, hs, hk, hf⟩ | hm
      · exact Or.inl ⟨s, List.mem_cons_of_mem _ hs, hk, hf⟩
      · rw [findVal_setKey] at hm
        by_cases htk : t.id = k
        · exact Or.inl ⟨t, List.mem_cons_self _ _, htk, by simp [hv]⟩
        · simp [htk] at hm
          exact Or.inr hm

theorem refetchFullContent_length (bookmarks : List BirdBookmark)
    (f : Str → Option BirdBookmark) :
    (refetchFullContent bookmarks f).length = bookmarks.length := by
  unfold refetchFullContent
  by_cases h : (bookmarks.filter (fun b => isStubText b.text)).isEmpty <;> simp [h]

/-- Pointwise characterisation of the stub resolver on inputs with
pairwise-distinct ids. -/
theorem refetchFullContent_get (bookmarks : List BirdBookmark)
    (f : Str → Option BirdBookmark)
    (hnd : (bookmarks.map (fun b => b.id)).Nodup)
    (i : Nat) (b : BirdBookmark) (hb : bookmarks[i]? = some b) :
    (refetchFullContent bookmarks f)[i]? =
      some
        (if isStubText b.text then
          match f b.id with
          | some v => mergeStub b v
          | none => b
        else b) := by
  have hmem : b ∈ bookmarks := List.getElem?_mem hb
  unfold refetchFullContent
  by_cases hemp : (bookmarks.filter (fun b => isStubText b.text)).isEmpty
  · have hnostub : ∀ a ∈ bookmarks, ¬ isStubText a.text = true :=
      List.filter_eq_nil_iff.mp (List.isEmpty_iff.mp hemp)
    have hb' : ¬ isStubText b.text = true := hnostub b hmem
    simp [hemp, hb, hb']
  · rw [if_neg hemp, List.getElem?_map, hb, Option.map_some']
    congr 1
    by_cases hstub : isStubText b.text
    · rcases hv : f b.id with _ | v
      · have hz : findVal (buildStubMap (bookmarks.filter (fun b => isStubText b.text)) f)
            b.id = none := by
          apply buildStubMap_skip
          intro s hs hk
          have hsmem : s ∈ bookmarks := (List.mem_filter.mp hs).1
          have heq : s = b := List.inj_on_of_nodup_map hnd hsmem hmem hk
          subst heq
          exact hv
        simp [hz, hstub, hv]
      · have hbst : b ∈ bookmarks.filter (fun b => isStubText b.text) :=
          List.mem_filter.mpr ⟨hmem, hstub⟩
        have hsub : ((bookmarks.filter (fun b => isStubText b.text)).map
            (fun b => b.id)).Nodup :=
          ((List.filter_sublist bookmarks).map (fun b => b.id)).nodup hnd
        have hz : findVal (buildStubMap (bookmarks.filter (fun b => isStubText b.text)) f)
            b.id = some (mergeStub b v) := by
          rw [buildStubMap]
          exact buildStubMap_fold_hit f b.id _ [] b v hsub hbst rfl hv
        simp [hz, hstub, hv]
    · have hz : findVal (buildStubMap (bookmarks.filter (fun b => isStubText b.text)) f)
          b.id = none := by
        apply buildStubMap_skip
        intro s hs hk
        exfalso
        have hsmem : s ∈ bookmarks := (List.mem_filter.mp hs).1
        have heq : s = b := List.inj_on_of_nodup_map hnd hsmem hmem hk
        subst heq
        exact hstub (List.mem_filter.mp hs).2
      simp [hz, hstub]

/-- Two runs whose lookup collaborators agree outside one id build stub
maps that agree outside that id. -/
theorem buildStubMap_fold_local (f₁ f₂ : Str → Option BirdBookmark) (id₀ : Str)
    (hagree : ∀ k, k ≠ id₀ → f₁ k = f₂ k) :
    ∀ (stubs : List BirdBookmark) (m₁ m₂ : List (Str × BirdBookmark)),
      (∀ k, k ≠ id₀ → findVal m₁ k = findVal m₂ k) →
      ∀ k, k ≠ id₀ →
        findVal
          (stubs.foldl
            (fun m s =>
              match f₁ s.id with
              | some v => setKey m s.id (mergeStub s v)
              | none => m)
            m₁) k =
        findVal
          (stubs.foldl
            (fun m s =>
              match f₂ s.id with
              | some v => setKey m s.id (mergeStub s v)
              | none => m)
            m₂) k := by
  intro stubs
  induction stubs with
  | nil => intro m₁ m₂ hm k hk; exact hm k hk
  | cons s rest ih =>
    intro m₁ m₂ hm k hk
    simp only [List.foldl_cons]
    refine ih _ _ ?_ k hk
    intro k' hk'
    by_cases hsid : s.id = id₀
    · have hne : s.id ≠ k' := by rw [hsid]; exact fun h => hk' h.symm
      rcases h1 : f₁ s.id with _ | v₁ <;> rcases h2 : f₂ s.id with _ | v₂ <;>
        simp [findVal_setKey, hne, hm k' hk']
    · have heq : f₁ s.id = f₂ s.id := hagree s.id hsid
      rcases h1 : f₁ s.id with _ | v
      · have h2 : f₂ s.id = none := heq ▸ h1
        simp only [h1, h2]
        exact hm k' hk'
      · have h2 : f₂ s.id = some v := heq ▸ h1
        simp only [h1, h2, findVal_setKey]
        by_cases hsk : s.id = k' <;> simp [hsk, hm k' hk']

/-- A failing per-item lookup leaves that item untouched, without any
distinctness assumption: its id never enters the stub map. -/
theorem refetchFullContent_keeps_failed (bookmarks : List BirdBookmark)
    (f : Str → Option BirdBookmark) (i : Nat) (b : BirdBookmark)
    (hb : bookmarks[i]? = some b) (hf : f b.id = none) :
    (refetchFullContent bookmarks f)[i]? = some b := by
  unfold refetchFullContent
  by_cases hemp : (bookmarks.filter (fun b => isStubText b.text)).isEmpty
  · simpa [hemp] using hb
  · rw [if_neg hemp, List.getElem?_map, hb, Option.map_some']
    have hz : findVal (buildStubMap (bookmarks.filter (fun b => isStubText b.text)) f)
        b.id = none := by
      by_contra hne
      rcases buildStubMap_fold_mem f b.id _ [] hne with ⟨s, _, hk, hfs⟩ | hm
      · exact hfs (hk ▸ hf)
      · exact hm rfl
    simp [hz]

/- ## Concrete fixtures for the stub resolver claims -/

/-- A stub bookmark (bare t.co body) with all-zero engagement. -/
def cxStub : BirdBookmark :=
  { id := "1".toList
    text := "https://t.co/abc".toList
    createdAt := []
    replyCount := 0
    retweetCount := 0
    likeCount := 0
    viewCount := none
    author := ⟨"a".toList, "A".toList⟩
    urls := []
    article := none }

/-- A non-stub bookmark that shares `cxStub`'s id. -/
def cxDup : BirdBookmark :=
  { cxStub with text := "hello world".toList, likeCount := 7 }

/-- A non-stub bookmark with a fresh id. -/
def cxOther : BirdBookmark :=
  { cxStub with id := "2".toList, text := "hello world".toList, likeCount := 7 }

/-- The full-content record returned by the single-item lookup. -/
def cxFull : BirdBookmark :=
  { cxStub with text := "full article text".toList, likeCount := 3, viewCount := some 9 }

/-- Lookup collaborator: succeeds (with `cxFull`) exactly for id "1". -/
def cxLookup : Str → Option BirdBookmark :=
  fun k => if k = "1".toList then some cxFull else none

/-- A stub bookmark with nonzero engagement counters. -/
def cxStubLiked : BirdBookmark :=
  { cxStub with likeCount := 5, retweetCount := 2, viewCount := some 10 }

/- ## Claim C3 -/

/-- C3 counterexample: on a list with a duplicated id, the non-stub
duplicate is *not* returned unchanged — the merged record built for the
stub with the same id replaces it as well.  The claim's universal
statement over every list of RawItems therefore fails. -/
theorem claim_C3_counterexample :
    (refetchFullContent [cxStub, cxDup] cxLookup)[1]? ≠ some cxDup := by decide

/-- C3 (amended: for inputs whose ids are pairwise distinct): the
resolver returns a same-length, same-order list in which exactly the
stub items with a successful lookup are replaced by the merged
looked-up record, and every other item is unchanged. -/
theorem claim_C3_stub_resolver (bookmarks : List BirdBookmark)
    (f : Str → Option BirdBookmark)
    (hnd : (bookmarks.map (fun b => b.id)).Nodup) :
    (refetchFullContent bookmarks f).length = bookmarks.length ∧
    ∀ (i : Nat) (b : BirdBookmark), bookmarks[i]? = some b →
      (refetchFullContent bookmarks f)[i]? =
        some
          (if isStubText b.text then
            match f b.id with
            | some v => mergeStub b v
            | none => b
          else b) :=
  ⟨refetchFullContent_length bookmarks f,
   fun i b hb => refetchFullContent_get bookmarks f hnd i b hb⟩

theorem claim_C3_witness :
    (refetchFullContent [cxStub, cxOther] cxLookup).length = 2 ∧
    (refetchFullContent [cxStub, cxOther] cxLookup)[0]? =
      some (mergeStub cxStub cxFull) ∧
    (refetchFullContent [cxStub, cxOther] cxLookup)[1]? = some cxOther := by
  have h := claim_C3_stub_resolver [cxStub, cxOther] cxLookup (by decide)
  refine ⟨h.1, ?_, ?_⟩
  · rw [h.2 0 cxStub (by decide)]; decide
  · rw [h.2 1 cxOther (by decide)]; decide

/- ## Claim C7 -/

/-- C7: a failing single-item lookup (which in the source covers the
15 s timeout path of `fetchBookmarkById`) keeps the original stub
record at its position, leaves all items with other ids exactly as a
run with any other behaviour at the failing id would produce them, and
the resolver is a total function (it never raises). -/
theorem claim_C7_lookup_failure (bookmarks : List BirdBookmark)
    (f f' : Str → Option BirdBookmark) (id₀ : Str) :
    (refetchFullContent bookmarks f).length = bookmarks.length ∧
    (∀ (i : Nat) (b : BirdBookmark), bookmarks[i]? = some b →
      isStubText b.text = true → f b.id = none →
      (refetchFullContent bookmarks f)[i]? = some b) ∧
    ((∀ k, k ≠ id₀ → f k = f' k) →
      ∀ (i : Nat) (b : BirdBookmark), bookmarks[i]? = some b → b.id ≠ id₀ →
        (refetchFullContent bookmarks f)[i]? = (refetchFullContent bookmarks f')[i]?) := by
  refine ⟨refetchFullContent_length bookmarks f, ?_, ?_⟩
  · intro i b hb _ hf
    exact refetchFullContent_keeps_failed bookmarks f i b hb hf
  · intro hagree i b hb hid
    unfold refetchFullContent
    by_cases hemp : (bookmarks.filter (fun b => isStubText b.text)).isEmpty
    · simp [hemp]
    · rw [if_neg hemp, if_neg hemp, List.getElem?_map, List.getElem?_map, hb,
        Option.map_some', Option.map_some']
      have hloc := buildStubMap_fold_local f f' id₀ hagree
        (bookmarks.filter (fun b => isStubText b.text)) [] []
        (fun _ _ => rfl) b.id hid
      rw [buildStubMap, buildStubMap, hloc]

theorem claim_C7_witness :
    (refetchFullContent [cxStub] (fun _ => none)).length = 1 ∧
    (refetchFullContent [cxStub] (fun _ => none))[0]? = some cxStub ∧
    (refetchFullContent [cxOther] (fun _ => none))[0]? =
      (refetchFullContent [cxOther] cxLookup)[0]? := by
  have h := claim_C7_lookup_failure [cxStub] (fun _ => none) cxLookup ("1".toList)
  have h2 := claim_C7_lookup_failure [cxOther] (fun _ => none) cxLookup ("1".toList)
  refine ⟨h.1, ?_, ?_⟩
  · exact h.2.1 0 cxStub (by decide) (by decide) rfl
  · refine h2.2.2 (fun k hk => ?_) 0 cxOther (by decide) (by decide)
    have hk' : ¬ k = ['1'] := hk
    simp [cxLookup, hk']

/- ## Claim C8 -/

/-- C8 counterexample: for a stub whose original `likeCount` is 0, the
merged record carries the lookup's count (3), not the original's (0):
JS `stub.likeCount || result.value.likeCount` treats 0 as falsy, so the
merged counters do not always equal the original's. -/
theorem claim_C8_counterexample :
    ((refetchFullContent [cxStub] cxLookup)[0]?.map (fun b => b.likeCount)) = some 3 ∧
    cxStub.likeCount = 0 := by decide

/-- C8 (amended): for a stub with a successful lookup the merged record's
engagement counters equal the original list-fetch item's counters
whenever those are nonzero (and, for the optional view count, present
and nonzero); a zero or absent original counter falls back to the
looked-up record's value. -/
theorem claim_C8_engagement_merge (bookmarks : List BirdBookmark)
    (f : Str → Option BirdBookmark)
    (hnd : (bookmarks.map (fun b => b.id)).Nodup)
    (i : Nat) (b v : BirdBookmark)
    (hb : bookmarks[i]? = some b) (hstub : isStubText b.text = true)
    (hv : f b.id = some v) :
    (refetchFullContent bookmarks f)[i]? = some (mergeStub b v) ∧
    (b.likeCount ≠ 0 → (mergeStub b v).likeCount = b.likeCount) ∧
    (b.likeCount = 0 → (mergeStub b v).likeCount = v.likeCount) ∧
    (b.retweetCount ≠ 0 → (mergeStub b v).retweetCount = b.retweetCount) ∧
    (b.retweetCount = 0 → (mergeStub b v).retweetCount = v.retweetCount) ∧
    (b.replyCount ≠ 0 → (mergeStub b v).replyCount = b.replyCount) ∧
    (b.replyCount = 0 → (mergeStub b v).replyCount = v.replyCount) ∧
    (∀ n, b.viewCount = some n → n ≠ 0 → (mergeStub b v).viewCount = some n) := by
  refine ⟨?_, ?_, ?_, ?_, ?_, ?_, ?_, ?_⟩
  · rw [refetchFullContent_get bookmarks f hnd i b hb]
    simp [hstub, hv]
  · intro h; simp [mergeStub, jsOrNat, h]
  · intro h; simp [mergeStub, jsOrNat, h]
  · intro h; simp [mergeStub, jsOrNat, h]
  · intro h; simp [mergeStub, jsOrNat, h]
  · intro h; simp [mergeStub, jsOrNat, h]
  · intro h; simp [mergeStub, jsOrNat, h]
  · intro n h hn; simp [mergeStub, jsOrOptNat, h, hn]

theorem claim_C8_witness :
    (refetchFullContent [cxStubLiked] cxLookup)[0]? =
      some (mergeStub cxStubLiked cxFull) ∧
    (mergeStub cxStubLiked cxFull).likeCount = cxStubLiked.likeCount ∧
    (mergeStub cxStubLiked cxFull).viewCount = some 10 := by
  have h := claim_C8_engagement_merge [cxStubLiked] cxLookup (by decide) 0 cxStubLiked
    cxFull (by decide) (by decide) (by decide)
  exact ⟨h.1, h.2.1 (by decide), h.2.2.2.2.2.2.2 10 (by decide) (by decide)⟩

/- ## Fetch Target Resolver (handleBookmarkDigest, src/discord-bot/src/commands/bookmark-digest.ts) -/

/-- One iteration's crop of new bookmarks: the raw-fetch collaborator
returns the `fetchCount` most recent items of a fixed most-recent-first
stream (`stream.take fetchCount` — the source has no cursor and
re-fetches from scratch each retry), the membership collaborator
(`processed`) marks already-analyzed ids, and the handler keeps the
first `target` new ones (`.filter(...).slice(0, analysisTarget)`). -/
def newItems (stream : List BirdBookmark) (processed : Str → Bool)
    (target fetchCount : Nat) : List BirdBookmark :=
  ((stream.take fetchCount).filter (fun b => !processed b.id)).take target

/-- The `for (let fetchCount = Math.max(analysisTarget + 10, 20); ;
fetchCount = Math.min(fetchCount * 3, MAX_FETCH))` loop with
`MAX_FETCH = 200`.  The `fuel` argument only bounds the recursion: from
the entry window the ceiling is reached within 4 iterations, and the
fuel-exhausted arm returns the same crop the source's final iteration
returns once the window is at the ceiling (the invariant
`200 ≤ fetchCount * 3 ^ fuel` below shows the arm is only ever taken
with `200 ≤ fetchCount`). -/
def fetchLoop (stream : List BirdBookmark) (processed : Str → Bool)
    (target : Nat) : Nat → Nat → List BirdBookmark
  | 0, fetchCount => newItems stream processed target fetchCount
  | fuel + 1, fetchCount =>
    let news := newItems stream processed target fetchCount
    if target ≤ news.length ∨ 200 ≤ fetchCount then news
    else fetchLoop stream processed target fuel (min (fetchCount * 3) 200)

/-- The fetch-target loop as entered by `handleBookmarkDigest`. -/
def resolveFetchTarget (stream : List BirdBookmark) (processed : Str → Bool)
    (target : Nat) : List BirdBookmark :=
  fetchLoop stream processed target 4 (max (target + 10) 20)

/-- Widening the fetch window can only increase the number of new items
visible in it. -/
theorem filter_take_mono (stream : List BirdBookmark) (p : BirdBookmark → Bool)
    {a b : Nat} (h : a ≤ b) :
    ((stream.take a).filter p).length ≤ ((stream.take b).filter p).length := by
  have heq : stream.take a = (stream.take b).take a := by
    rw [List.take_take, min_eq_left h]
  rw [heq]
  exact (((List.take_sublist a (stream.take b))).filter p).length_le

/-- Loop invariant: starting from a positive window that can reach the
ceiling within the available fuel, the loop (i) returns at least
`target` new items whenever the 200-item window holds that many, and
(ii) returns the complete new-item crop of some at-least-200 window
whenever it returns fewer than `target`. -/
theorem fetchLoop_spec (stream : List BirdBookmark) (processed : Str → Bool)
    (target : Nat) :
    ∀ (fuel fetchCount : Nat), 0 < fetchCount → 200 ≤ fetchCount * 3 ^ fuel →
    (target ≤ ((stream.take 200).filter (fun b => !processed b.id)).length →
      target ≤ (fetchLoop stream processed target fuel fetchCount).length) ∧
    ((fetchLoop stream processed target fuel fetchCount).length < target →
      ∃ F, 200 ≤ F ∧
        fetchLoop stream processed target fuel fetchCount =
          (stream.take F).filter (fun b => !processed b.id)) := by
  intro fuel
  induction fuel with
  | zero =>
    intro fetchCount hpos hinv
    simp only [pow_zero, mul_one] at hinv
    constructor
    · intro htarget
      have hmono := filter_take_mono stream (fun b => !processed b.id) hinv
      simp only [fetchLoop, newItems, List.length_take]
      omega
    · intro hshort
      refine ⟨fetchCount, hinv, ?_⟩
      simp only [fetchLoop, newItems, List.length_take] at hshort ⊢
      have : ((stream.take fetchCount).filter (fun b => !processed b.id)).length < target := by
        omega
      exact List.take_of_length_le (by omega)
  | succ fuel ih =>
    intro fetchCount hpos hinv
    by_cases hbr : target ≤ (newItems stream processed target fetchCount).length ∨
        200 ≤ fetchCount
    · constructor
      · intro htarget
        simp only [fetchLoop, if_pos hbr]
        rcases hbr with h | h
        · exact h
        · have hmono := filter_take_mono stream (fun b => !processed b.id) h
          simp only [newItems, List.length_take]
          omega
      · intro hshort
        simp only [fetchLoop, if_pos hbr] at hshort ⊢
        rcases hbr with h | h
        · omega
        · refine ⟨fetchCount, h, ?_⟩
          simp only [newItems, List.length_take] at hshort ⊢
          exact List.take_of_length_le (by omega)
    · have hlt : fetchCount < 200 := by
        rcases not_or.mp hbr with ⟨_, h⟩; omega
      have hpos' : 0 < min (fetchCount * 3) 200 := by omega
      have hinv' : 200 ≤ min (fetchCount * 3) 200 * 3 ^ fuel := by
        have h3 : (0:Nat) < 3 ^ fuel := Nat.pos_pow_of_pos fuel (by omega)
        by_cases hc : fetchCount * 3 ≤ 200
        · have : fetchCount * 3 ^ (fuel + 1) = fetchCount * 3 * 3 ^ fuel := by ring
          rw [this] at hinv
          rw [min_eq_left hc]
          exact hinv
        · rw [min_eq_right (by omega)]
          calc 200 = 200 * 1 := by omega
          _ ≤ 200 * 3 ^ fuel := Nat.mul_le_mul_left _ h3
      have hrec := ih (min (fetchCount * 3) 200) hpos' hinv'
      constructor
      · intro htarget
        simp only [fetchLoop, if_neg hbr]
        exact hrec.1 htarget
      · intro hshort
        simp only [fetchLoop, if_neg hbr] at hshort ⊢
        exact hrec.2 hshort

/-- C4: for every target count and membership-test result set, the
fetch-target loop returns at least `target` new items whenever that
many exist within the 200-item fetch ceiling; when it returns fewer,
the final fetch window had reached the ceiling and the loop returned
every new item found in it. -/
theorem claim_C4_fetch_target (stream : List BirdBookmark) (processed : Str → Bool)
    (target : Nat) :
    (target ≤ ((stream.take 200).filter (fun b => !processed b.id)).length →
      target ≤ (resolveFetchTarget stream processed target).length) ∧
    ((resolveFetchTarget stream processed target).length < target →
      ∃ F, 200 ≤ F ∧
        resolveFetchTarget stream processed target =
          (stream.take F).filter (fun b => !processed b.id)) := by
  have h20 : 20 ≤ max (target + 10) 20 := le_max_right _ _
  have hmul : 20 * 3 ^ 4 ≤ max (target + 10) 20 * 3 ^ 4 :=
    Nat.mul_le_mul_right _ h20
  have h81 : (3:Nat) ^ 4 = 81 := by norm_num
  exact fetchLoop_spec stream processed target 4 (max (target + 10) 20)
    (by omega) (by rw [h81]; rw [h81] at hmul; omega)

/-- A third fixture bookmark with a fresh id for the fetch-loop witness. -/
def cxU3 : BirdBookmark :=
  { cxStub with id := "3".toList, text := "plain text".toList }

/-- Membership test marking id "1" as already processed. -/
def cxProcessed : Str → Bool := fun id => id == "1".toList

theorem claim_C4_witness :
    2 ≤ ((([cxStub, cxOther, cxU3].take 200).filter
        (fun b => !cxProcessed b.id)).length) ∧
    2 ≤ (resolveFetchTarget [cxStub, cxOther, cxU3] cxProcessed 2).length :=
  ⟨by decide,
   (claim_C4_fetch_target [cxStub, cxOther, cxU3] cxProcessed 2).1 (by decide)⟩

/- ## Analysis results (src/unnamed/part_002, types/bookmark.ts) -/

/-- The closed category set of `BookmarkCategory`. -/
inductive BookmarkCategory where
  | AI
  | crypto
  | marketing
  | tools
  | personal
  | news
  | contentIdeas
  | other
deriving DecidableEq

/-- `BookmarkAnalysis` (types/bookmark.ts), extended with the `actions`
array that the digest formatter of src/unnamed/part_005 reads. -/
structure BookmarkAnalysis where
  bookmarkId : Str
  category : BookmarkCategory
  isActionable : Bool
  summary : Str
  keyTakeaway : Str
  actions : List Str
  author : Str
  authorUsername : Str
  text : Str
  likeCount : Nat
  retweetCount : Nat
  createdAt : Str
deriving DecidableEq

/- ## Batch Analyzer (ClaudeAnalyzer, src/discord-bot/src/database/db.ts) -/

def BATCH_SIZE : Nat := 5

/-- `AnalysisResponse` (db.ts): the five analysis fields of one slot of
the parsed service response. -/
structure AnalysisResponse where
  category : BookmarkCategory
  isActionable : Bool
  summary : Str
  keyTakeaway : Str
  action : Str
deriving DecidableEq

/-- The record `analyzeBatch` produces: the declared `BookmarkAnalysis`
interface of types/bookmark.ts with its single `action` string.  (The
name `BookmarkAnalysis` is used here for the formatter-facing record
with the untyped `actions` array that the digest formatter reads.) -/
structure AnalyzedBookmark where
  bookmarkId : Str
  category : BookmarkCategory
  isActionable : Bool
  summary : Str
  keyTakeaway : Str
  action : Str
  author : Str
  authorUsername : Str
  text : Str
  likeCount : Nat
  retweetCount : Nat
  createdAt : Str
deriving DecidableEq

/-- The object `parseResponse`'s `while` loop pushes to pad a short
array up to the batch length. -/
def padFallback : AnalysisResponse :=
  { category := .other
    isActionable := false
    summary := "Unable to analyze".toList
    keyTakeaway := "Analysis was not available for this bookmark.".toList
    action := "No action identified".toList }

/-- The per-bookmark object returned by `parseResponse`'s catch path. -/
def errorFallback : AnalysisResponse :=
  { category := .other
    isActionable := false
    summary := "Analysis failed".toList
    keyTakeaway := "Could not analyze this bookmark.".toList
    action := "Unable to generate action".toList }

/-- The inline `||` fallback of `analyzeBatch`'s map, used when a
parsed slot is null or missing: `bookmark.text.slice(0, 100) + '...'`
as the summary. -/
def sliceFallback (b : BirdBookmark) : AnalysisResponse :=
  { category := .other
    isActionable := false
    summary := b.text.take 100 ++ "...".toList
    keyTakeaway := "Could not analyze this bookmark.".toList
    action := "No specific action identified".toList }

/-- `ClaudeAnalyzer.parseResponse`, over the abstracted outcome of
`JSON.parse` plus array extraction (the trim, the code-fence stripping
and the `parsed.bookmarks || parsed.results || []` chain): `none`
models a throw (malformed JSON, or no array found), `some arr` the
extracted array, a slot being `none` where its element is JSON `null`.
The catch path returns one `errorFallback` per bookmark; the `while`
loop pads a short array with `padFallback` up to the batch length. -/
def parseResponse (bookmarks : List BirdBookmark)
    (out : Option (List (Option AnalysisResponse))) :
    List (Option AnalysisResponse) :=
  match out with
  | none => bookmarks.map (fun _ => some errorFallback)
  | some arr =>
    arr ++ List.replicate (bookmarks.length - arr.length) (some padFallback)

/-- The map body of `analyzeBatch`: identity and engagement fields from
the input bookmark, the five analysis fields from `parsedResponses[idx]`
(or the inline slice fallback when that slot is null or missing). -/
def mergeAnalysis (b : BirdBookmark) (slot : Option AnalysisResponse) :
    AnalyzedBookmark :=
  let analysis := slot.getD (sliceFallback b)
  { bookmarkId := b.id
    category := analysis.category
    isActionable := analysis.isActionable
    summary := analysis.summary
    keyTakeaway := analysis.keyTakeaway
    action := analysis.action
    author := b.author.name
    authorUsername := b.author.username
    text := b.text
    likeCount := b.likeCount
    retweetCount := b.retweetCount
    createdAt := b.createdAt }

/-- The indexed `bookmarks.map((bookmark, idx) => ...)` of
`analyzeBatch`; a missing index reads as `none`, as JS `undefined`
does under `||`. -/
def analyzeBatchFrom (parsed : List (Option AnalysisResponse)) :
    List BirdBookmark → Nat → List AnalyzedBookmark
  | [], _ => []
  | b :: bs, idx =>
    mergeAnalysis b (parsed.getD idx none) :: analyzeBatchFrom parsed bs (idx + 1)

/-- `ClaudeAnalyzer.analyzeBatch` (the analysis list; the token usage
tallies and the 429 wait-and-retry exchange no analysis content). -/
def analyzeBatch (bookmarks : List BirdBookmark)
    (out : Option (List (Option AnalysisResponse))) : List AnalyzedBookmark :=
  analyzeBatchFrom (parseResponse bookmarks out) bookmarks 0

/-- The batch loop of `ClaudeAnalyzer.analyzeBookmarks` over the
(already stub-refetched and URL-enriched) bookmark list: slices of
`BATCH_SIZE` processed in order, `oracle i` abstracting the parse
outcome of batch `i`'s service response.  The structural fuel is the
list length, enough as every step consumes at least one bookmark. -/
def analyzeLoop (oracle : Nat → Option (List (Option AnalysisResponse))) :
    Nat → Nat → List BirdBookmark → List AnalyzedBookmark
  | 0, _, _ => []
  | fuel + 1, i, rest =>
    match rest with
    | [] => []
    | b :: bs =>
      analyzeBatch ((b :: bs).take BATCH_SIZE) (oracle i) ++
        analyzeLoop oracle fuel (i + 1) ((b :: bs).drop BATCH_SIZE)

/-- `ClaudeAnalyzer.analyzeBookmarks`' analysis list.  Steps 1 and 2
(stub refetch, URL enrichment) feed only the list and prompt contents
and are the subject of C3/C6/C7; the cost and token totals carry no
analysis content. -/
def analyzeBookmarksModel (oracle : Nat → Option (List (Option AnalysisResponse)))
    (bookmarks : List BirdBookmark) : List AnalyzedBookmark :=
  analyzeLoop oracle bookmarks.length 0 bookmarks

/-- The parsed slot feeding result `j`: slot `j % BATCH_SIZE` of batch
`j / BATCH_SIZE`'s parsed (and padded) response. -/
def slotAt (oracle : Nat → Option (List (Option AnalysisResponse)))
    (bookmarks : List BirdBookmark) (j : Nat) : Option AnalysisResponse :=
  (parseResponse ((bookmarks.drop (BATCH_SIZE * (j / BATCH_SIZE))).take BATCH_SIZE)
    (oracle (j / BATCH_SIZE))).getD (j % BATCH_SIZE) none

theorem listGetD_eq {α : Type} : ∀ (l : List (Option α)) (i : Nat),
    l.getD i none = (l[i]?).getD none := by
  intro l
  induction l with
  | nil => intro i; cases i <;> rfl
  | cons x xs ih =>
    intro i
    cases i with
    | zero => simp [List.getD]
    | succ i' => simpa [List.getD] using ih i'

theorem analyzeBatchFrom_length (parsed : List (Option AnalysisResponse)) :
    ∀ (bs : List BirdBookmark) (idx : Nat),
      (analyzeBatchFrom parsed bs idx).length = bs.length := by
  intro bs
  induction bs with
  | nil => intro idx; rfl
  | cons b bs' ih =>
    intro idx
    rw [analyzeBatchFrom, List.length_cons, List.length_cons, ih]

theorem analyzeBatchFrom_get (parsed : List (Option AnalysisResponse)) :
    ∀ (bs : List BirdBookmark) (idx j : Nat) (b : BirdBookmark),
      bs[j]? = some b →
      (analyzeBatchFrom parsed bs idx)[j]? =
        some (mergeAnalysis b (parsed.getD (idx + j) none)) := by
  intro bs
  induction bs with
  | nil => intro idx j b hb; simp at hb
  | cons b₀ bs' ih =>
    intro idx j b hb
    cases j with
    | zero =>
      rw [List.getElem?_cons_zero] at hb
      rw [analyzeBatchFrom, List.getElem?_cons_zero, Option.some_inj.mp hb,
        Nat.add_zero]
    | succ j' =>
      rw [List.getElem?_cons_succ] at hb
      rw [analyzeBatchFrom, List.getElem?_cons_succ, ih (idx + 1) j' b hb,
        show idx + 1 + j' = idx + (j' + 1) from by omega]

theorem analyzeBatch_length (bookmarks : List BirdBookmark)
    (out : Option (List (Option AnalysisResponse))) :
    (analyzeBatch bookmarks out).length = bookmarks.length :=
  analyzeBatchFrom_length _ bookmarks 0

theorem analyzeBatch_get (bookmarks : List BirdBookmark)
    (out : Option (List (Option AnalysisResponse))) (j : Nat) (b : BirdBookmark)
    (hb : bookmarks[j]? = some b) :
    (analyzeBatch bookmarks out)[j]? =
      some (mergeAnalysis b ((parseResponse bookmarks out).getD j none)) := by
  rw [analyzeBatch, analyzeBatchFrom_get _ bookmarks 0 j b hb, Nat.zero_add]

theorem analyzeLoop_length (oracle : Nat → Option (List (Option AnalysisResponse))) :
    ∀ (fuel : Nat) (rest : List BirdBookmark), rest.length ≤ fuel →
      ∀ (i : Nat), (analyzeLoop oracle fuel i rest).length = rest.length := by
  intro fuel
  induction fuel with
  | zero =>
    intro rest hlen i
    have h0 : rest = [] := List.length_eq_zero.mp (by omega)
    subst h0
    rfl
  | succ n ih =>
    intro rest hlen i
    cases rest with
    | nil => rfl
    | cons h t =>
      have hB : BATCH_SIZE = 5 := rfl
      have hlen' : t.length + 1 ≤ n + 1 := by simpa using hlen
      rw [analyzeLoop, List.length_append, analyzeBatch_length,
        ih ((h :: t).drop BATCH_SIZE) (by simp [BATCH_SIZE]; omega) (i + 1)]
      rw [List.length_take, List.length_drop, hB]
      omega

theorem analyzeLoop_get (oracle : Nat → Option (List (Option AnalysisResponse))) :
    ∀ (fuel : Nat) (rest : List BirdBookmark), rest.length ≤ fuel →
      ∀ (i j : Nat) (b : BirdBookmark), rest[j]? = some b →
        (analyzeLoop oracle fuel i rest)[j]? =
          some (mergeAnalysis b
            ((parseResponse ((rest.drop (BATCH_SIZE * (j / BATCH_SIZE))).take BATCH_SIZE)
              (oracle (i + j / BATCH_SIZE))).getD (j % BATCH_SIZE) none)) := by
  have hB : BATCH_SIZE = 5 := rfl
  intro fuel
  induction fuel with
  | zero =>
    intro rest hlen i j b hb
    have h0 : rest = [] := List.length_eq_zero.mp (by omega)
    subst h0
    simp at hb
  | succ n ih =>
    intro rest hlen i j b hb
    cases rest with
    | nil => simp at hb
    | cons h t =>
      have hlen' : t.length + 1 ≤ n + 1 := by simpa using hlen
      have hj : j < t.length + 1 := by
        by_contra hc
        rw [List.getElem?_eq_none (by simp; omega)] at hb
        cases hb
      rw [analyzeLoop]
      by_cases hsmall : j < 5
      · have hleft : j < (analyzeBatch ((h :: t).take BATCH_SIZE) (oracle i)).length := by
          rw [analyzeBatch_length, List.length_take, List.length_cons, hB]
          omega
        have hb5 : ((h :: t).take BATCH_SIZE)[j]? = some b := by
          rw [List.getElem?_take, hB, if_pos hsmall]
          exact hb
        rw [List.getElem?_append_left hleft, analyzeBatch_get _ _ j b hb5]
        have hd : j / BATCH_SIZE = 0 := by rw [hB]; omega
        have hm : j % BATCH_SIZE = j := by rw [hB]; omega
        rw [hd, hm, Nat.add_zero, Nat.mul_zero, List.drop_zero]
      · have hlen5 : (analyzeBatch ((h :: t).take BATCH_SIZE) (oracle i)).length = 5 := by
          rw [analyzeBatch_length, List.length_take, hB]
          simp
          omega
        have hple : (analyzeBatch ((h :: t).take BATCH_SIZE) (oracle i)).length ≤ j := by
          omega
        rw [List.getElem?_append_right hple, hlen5]
        have hb' : ((h :: t).drop BATCH_SIZE)[j - 5]? = some b := by
          rw [List.getElem?_drop, hB, show 5 + (j - 5) = j from by omega]
          exact hb
        rw [ih ((h :: t).drop BATCH_SIZE) (by simp [hB]; omega) (i + 1) (j - 5) b hb']
        have hd : i + 1 + (j - 5) / BATCH_SIZE = i + j / BATCH_SIZE := by rw [hB]; omega
        have hm : (j - 5) % BATCH_SIZE = j % BATCH_SIZE := by rw [hB]; omega
        have hdrop : ((h :: t).drop BATCH_SIZE).drop (BATCH_SIZE * ((j - 5) / BATCH_SIZE)) =
            (h :: t).drop (BATCH_SIZE * (j / BATCH_SIZE)) := by
          rw [List.drop_drop]
          congr 1
          rw [hB]
          omega
        rw [hd, hm, hdrop]

/-- C1: the analyzer returns exactly one result per input bookmark and
in input order — regardless of the shape of every service response:
the `j`-th result merges the `j`-th input's identity and engagement
fields with the five analysis fields of slot `j % 5` of batch `j / 5`'s
parsed response; in particular, when a response parses to an array
shorter than its batch, every uncovered slot is filled with the
synthesized `padFallback` result rather than raising. -/
theorem claim_C1_batch_analyzer
    (oracle : Nat → Option (List (Option AnalysisResponse)))
    (bookmarks : List BirdBookmark) :
    (analyzeBookmarksModel oracle bookmarks).length = bookmarks.length ∧
    (∀ (j : Nat) (b : BirdBookmark), bookmarks[j]? = some b →
      (analyzeBookmarksModel oracle bookmarks)[j]? =
        some (mergeAnalysis b (slotAt oracle bookmarks j))) ∧
    (∀ (j : Nat) (b : BirdBookmark) (arr : List (Option AnalysisResponse)),
      bookmarks[j]? = some b → oracle (j / BATCH_SIZE) = some arr →
      arr.length ≤ j % BATCH_SIZE →
      (analyzeBookmarksModel oracle bookmarks)[j]? =
        some (mergeAnalysis b (some padFallback))) := by
  have hB : BATCH_SIZE = 5 := rfl
  refine ⟨analyzeLoop_length oracle bookmarks.length bookmarks le_rfl 0, ?_, ?_⟩
  · intro j b hb
    have h := analyzeLoop_get oracle bookmarks.length bookmarks le_rfl 0 j b hb
    rw [Nat.zero_add] at h
    exact h
  · intro j b arr hb horacle harr
    have h := analyzeLoop_get oracle bookmarks.length bookmarks le_rfl 0 j b hb
    rw [Nat.zero_add, horacle] at h
    rw [analyzeBookmarksModel, h]
    have hjlen : j < bookmarks.length := by
      by_contra hc
      rw [List.getElem?_eq_none (by omega)] at hb
      cases hb
    have hbatchlen :
        j % BATCH_SIZE <
          ((bookmarks.drop (BATCH_SIZE * (j / BATCH_SIZE))).take BATCH_SIZE).length := by
      rw [List.length_take, List.length_drop, hB]
      omega
    rw [parseResponse, listGetD_eq,
      List.getElem?_append_right (by omega : arr.length ≤ j % BATCH_SIZE)]
    rw [List.length_take, List.length_drop] at hbatchlen ⊢
    rw [List.getElem?_replicate, if_pos (by omega)]
    rfl

/-- A concrete bookmark for the C1 witness. -/
def cxBkC1 : BirdBookmark :=
  { id := "b1".toList
    text := "hello".toList
    createdAt := "c".toList
    replyCount := 0
    retweetCount := 2
    likeCount := 3
    viewCount := none
    author := { username := "u".toList, name := "N".toList }
    urls := []
    article := none }

def cxBkC1b : BirdBookmark :=
  { id := "b2".toList
    text := "world".toList
    createdAt := "c".toList
    replyCount := 1
    retweetCount := 0
    likeCount := 0
    viewCount := some 7
    author := { username := "v".toList, name := "M".toList }
    urls := []
    article := none }

/-- A concrete parsed slot for the C1 witness. -/
def cxRespC1 : AnalysisResponse :=
  { category := .AI
    isActionable := true
    summary := "sum".toList
    keyTakeaway := "key".toList
    action := "act".toList }

/-- Service oracle for the C1 witness: batch 0 parses to a one-element
array (shorter than its two-item batch), later batches fail. -/
def cxOracleC1 : Nat → Option (List (Option AnalysisResponse)) :=
  fun i => if i = 0 then some [some cxRespC1] else none

theorem claim_C1_witness :
    (analyzeBookmarksModel cxOracleC1 [cxBkC1, cxBkC1b]).length = 2 ∧
    (analyzeBookmarksModel cxOracleC1 [cxBkC1, cxBkC1b])[0]? =
      some (mergeAnalysis cxBkC1 (slotAt cxOracleC1 [cxBkC1, cxBkC1b] 0)) ∧
    (analyzeBookmarksModel cxOracleC1 [cxBkC1, cxBkC1b])[1]? =
      some (mergeAnalysis cxBkC1b (some padFallback)) :=
  ⟨(claim_C1_batch_analyzer cxOracleC1 [cxBkC1, cxBkC1b]).1,
   (claim_C1_batch_analyzer cxOracleC1 [cxBkC1, cxBkC1b]).2.1 0 cxBkC1 (by decide),
   (claim_C1_batch_analyzer cxOracleC1 [cxBkC1, cxBkC1b]).2.2 1 cxBkC1b
     [some cxRespC1] (by decide) (by decide) (by decide)⟩

/-- A concrete analysis record for the packager witnesses. -/
def cxAnalysis : BookmarkAnalysis :=
  { bookmarkId := "1".toList
    category := .AI
    isActionable := true
    summary := "s".toList
    keyTakeaway := "k".toList
    actions := ["do".toList]
    author := "A".toList
    authorUsername := "a".toList
    text := "t".toList
    likeCount := 1
    retweetCount := 0
    createdAt := [] }

/- ## Result Packager: category grouping (DigestFormatter.groupByCategory, src/unnamed/part_005) -/

/-- `ALL_CATEGORIES`, in source order. -/
def ALL_CATEGORIES : List BookmarkCategory :=
  [.AI, .crypto, .marketing, .tools, .personal, .news, .contentIdeas, .other]

/-- `CategoryGroup` (types/digest.ts, as used by src/unnamed/part_005:
category plus its items). -/
structure CategoryGroup where
  category : BookmarkCategory
  items : List BookmarkAnalysis
deriving DecidableEq

/-- The comparator `(a, b) => b.items.length - a.items.length`:
descending by item count, ties keeping insertion order (JS `sort` is
stable). -/
def byCountDesc (g₁ g₂ : CategoryGroup) : Prop :=
  g₂.items.length ≤ g₁.items.length

instance : DecidableRel byCountDesc :=
  fun a b => inferInstanceAs (Decidable (b.items.length ≤ a.items.length))

instance : IsTotal CategoryGroup byCountDesc :=
  ⟨fun a b => le_total b.items.length a.items.length⟩

instance : IsTrans CategoryGroup byCountDesc :=
  ⟨fun _ _ _ hab hbc => le_trans hbc hab⟩

/-- `DigestFormatter.groupByCategory`: the Map is seeded with every
known category (in `ALL_CATEGORIES` order), analyses are pushed onto
their category's bucket in input order, and the entries are sorted by
descending item count.  A stable sort over a total preorder has a
unique result, so the JS engine's stable `Array.sort` is modelled by
stable insertion sort. -/
def groupByCategory (analyses : List BookmarkAnalysis) : List CategoryGroup :=
  List.insertionSort byCountDesc
    (ALL_CATEGORIES.map
      (fun c => { category := c, items := analyses.filter (fun a => a.category == c) }))

theorem groupByCategory_perm (analyses : List BookmarkAnalysis) :
    (groupByCategory analyses).Perm
      (ALL_CATEGORIES.map
        (fun c =>
          { category := c,
            items := analyses.filter (fun a => a.category == c) : CategoryGroup })) :=
  List.perm_insertionSort byCountDesc _

/-- C9: the category grouping contains every known category exactly
once (also the empty ones), each group's items are exactly the input's
analyses of that category in input order, and the groups are ordered by
descending item count. -/
theorem claim_C9_grouping (analyses : List BookmarkAnalysis) :
    (∀ c : BookmarkCategory,
      ((groupByCategory analyses).filter (fun g => g.category == c)).length = 1) ∧
    (∀ g ∈ groupByCategory analyses,
      g.items = analyses.filter (fun a => a.category == g.category)) ∧
    (groupByCategory analyses).Pairwise
      (fun g₁ g₂ => g₂.items.length ≤ g₁.items.length) := by
  refine ⟨?_, ?_, ?_⟩
  · intro c
    rw [← List.countP_eq_length_filter,
      (groupByCategory_perm analyses).countP_eq, List.countP_map]
    cases c <;> rfl
  · intro g hg
    have hmem : g ∈ ALL_CATEGORIES.map
        (fun c =>
          { category := c,
            items := analyses.filter (fun a => a.category == c) : CategoryGroup }) :=
      ((groupByCategory_perm analyses).mem_iff).mp hg
    rcases List.mem_map.mp hmem with ⟨c, _, hc⟩
    rw [← hc]
  · exact List.sorted_insertionSort byCountDesc _

theorem claim_C9_witness :
    ((groupByCategory [cxAnalysis]).filter
      (fun g => g.category == BookmarkCategory.AI)).length = 1 ∧
    ({ category := BookmarkCategory.AI, items := [cxAnalysis] } :
        CategoryGroup).items =
      [cxAnalysis].filter (fun a => a.category == BookmarkCategory.AI) ∧
    (groupByCategory [cxAnalysis]).Pairwise
      (fun g₁ g₂ => g₂.items.length ≤ g₁.items.length) :=
  ⟨(claim_C9_grouping [cxAnalysis]).1 .AI,
   (claim_C9_grouping [cxAnalysis]).2.1
     { category := .AI, items := [cxAnalysis] } (by decide),
   (claim_C9_grouping [cxAnalysis]).2.2⟩

/- ## Result Packager: embed building (DigestFormatter, src/unnamed/part_005) -/

def MAX_FIELD_LENGTH : Nat := 1024

def MAX_EMBED_TOTAL : Nat := 5800

def MAX_KEY_TAKEAWAY_LENGTH : Nat := 700

def MAX_ACTION_LENGTH : Nat := 180

/-- JS `text.split('\n')` (an empty string yields one empty line). -/
def splitNl : Str → List Str
  | [] => [[]]
  | c :: rest =>
    if c = '\n' then [] :: splitNl rest
    else
      match splitNl rest with
      | [] => [[c]]
      | l :: ls => (c :: l) :: ls

/-- JS `lines.join('\n')`. -/
def joinNl (ls : List Str) : Str := List.intercalate ['\n'] ls

/-- `DigestFormatter.truncateText`: `Math.max(0, maxLength - 3)` is Nat
truncated subtraction. -/
def truncateText (t : Str) (maxLength : Nat) : Str :=
  if t.length ≤ maxLength then t
  else t.take (maxLength - 3) ++ ('.' :: '.' :: '.' :: [])

/-- The `while (remaining.length > maxLength)` hard-split loop of
`splitForField`; returns the pushed slices and the final remainder.
The fuel is `remaining.length` at the call site, which suffices for
any positive `maxLength` (each step drops at least one character). -/
def hardChunks : Nat → Nat → Str → List Str × Str
  | 0, _, rem => ([], rem)
  | fuel + 1, m, rem =>
    if m < rem.length then
      let p := hardChunks fuel m (rem.drop m)
      (rem.take m :: p.1, p.2)
    else ([], rem)

/-- `pushCurrent`: a chunk is emitted (trailing-trimmed) only when the
accumulated text is not whitespace-only. -/
def pushChunk (chunks : List Str) (current : Str) : List Str :=
  if 0 < (trimS current).length then chunks ++ [trimEndS current] else chunks

/-- One iteration of `splitForField`'s `for (const line of lines)`. -/
def splitStep (maxLength : Nat) (st : List Str × Str) (line : Str) : List Str × Str :=
  let candidate := if 0 < st.2.length then st.2 ++ '\n' :: line else line
  if candidate.length ≤ maxLength then (st.1, candidate)
  else
    let chunks₁ := pushChunk st.1 st.2
    if line.length ≤ maxLength then (chunks₁, line)
    else
      let p := hardChunks line.length maxLength line
      (chunks₁ ++ p.1, p.2)

/-- The tail of `splitForField`: the final `pushCurrent()` and the
`chunks.length > 0 ? chunks : [truncateText(text, maxLength)]`
fallback. -/
def splitFinish (st : List Str × Str) (text : Str) (maxLength : Nat) : List Str :=
  if 0 < (pushChunk st.1 st.2).length then pushChunk st.1 st.2
  else [truncateText text maxLength]

/-- `DigestFormatter.splitForField`. -/
def splitForField (text : Str) (maxLength : Nat) : List Str :=
  if text.length ≤ maxLength then [text]
  else splitFinish ((splitNl text).foldl (splitStep maxLength) ([], [])) text maxLength

/-- The action normalisation of `formatSingleItem`: trim, truncate to
180, drop empties, keep at most 5. -/
def normalizeActions (acts : List Str) : List Str :=
  ((acts.map (fun a => truncateText (trimS a) MAX_ACTION_LENGTH)).filter
    (fun a => 0 < a.length)).take 5

/-- The fallback bullet used when no action survives normalisation. -/
def defaultActionText : Str :=
  "Review this bookmark and decide the most relevant next step.".toList

/-- `DigestFormatter.formatSingleItem`. -/
def formatSingleItem (item : BookmarkAnalysis) : Str :=
  let normalized := normalizeActions item.actions
  let acts := if 0 < normalized.length then normalized else [defaultActionText]
  let actionsText := List.intercalate ['\n'] (acts.map (fun a => '-' :: ' ' :: a))
  let tweetUrl :=
    "https://x.com/".toList ++ item.authorUsername ++ "/status/".toList ++ item.bookmarkId
  let keyTakeaway := truncateText item.keyTakeaway MAX_KEY_TAKEAWAY_LENGTH
  "**".toList ++ item.summary ++ "** - @".toList ++ item.authorUsername ++
    "\n\n".toList ++ keyTakeaway ++ "\n\n".toList ++
    "Bookmark ID: ".toList ++ item.bookmarkId ++ "\n".toList ++
    "Link to the tweet: ".toList ++ tweetUrl ++ "\n".toList ++
    "Suggested actions:\n".toList ++ actionsText ++ "\n\n".toList

/-- The per-category result of `category.toUpperCase()` over the fixed
category strings. -/
def catNameUpper : BookmarkCategory → Str
  | .AI => "AI".toList
  | .crypto => "CRYPTO".toList
  | .marketing => "MARKETING".toList
  | .tools => "TOOLS".toList
  | .personal => "PERSONAL".toList
  | .news => "NEWS".toList
  | .contentIdeas => "CONTENT-IDEAS".toList
  | .other => "OTHER".toList

/-- The field name `` `[${group.category.toUpperCase()}]` ``. -/
def fieldNameOf (g : CategoryGroup) : Str :=
  '[' :: catNameUpper g.category ++ [']']

/-- A Discord embed as the packager produces it: title, description
(used only by the empty-digest path) and named fields in insertion
order.  Footer and timestamp carry no packaged result content and are
omitted. -/
structure DigestEmbed where
  title : Str
  description : Str
  fields : List (Str × Str)
deriving DecidableEq

/-- The builder state: flushed embeds, the embed under construction and
the `currentLength` counter. -/
structure BuildState where
  finished : List DigestEmbed
  cur : DigestEmbed
  curLen : Nat
deriving DecidableEq

def digitChar (d : Nat) : Char := Char.ofNat (48 + d)

def natStrAux : Nat → Nat → Str
  | 0, _ => []
  | fuel + 1, n => if n = 0 then [] else natStrAux fuel (n / 10) ++ [digitChar (n % 10)]

/-- Decimal rendering of a count (the `${stats.newCount}` template
interpolation). -/
def natStr (n : Nat) : Str := if n = 0 then ['0'] else natStrAux n n

/-- `DigestStats` as read by `buildDigestEmbeds` (only `newCount` is
used; cost, monthly total and category counts feed no embed content). -/
structure DigestStats where
  newCount : Nat
deriving DecidableEq

def digestTitle (stats : DigestStats) : Str :=
  "📚 Bookmark Digest (".toList ++ natStr stats.newCount ++ " new)".toList

def contTitle : Str := "📚 Bookmark Digest (continued)".toList

def emptyTitle : Str := "📚 Bookmark Digest".toList

def emptyDescription : Str :=
  "✨ All caught up! No new bookmarks since last digest.".toList

/-- Adding one field: flush the embed first when the counter would pass
`MAX_EMBED_TOTAL`; the stored value is `fieldValue.trim()` while the
counter adds the untrimmed length, exactly as the source does. -/
def addField (st : BuildState) (name value : Str) : BuildState :=
  if MAX_EMBED_TOTAL < st.curLen + name.length + value.length then
    { finished := st.finished ++ [st.cur]
      cur := { title := contTitle, description := [], fields := [(name, trimS value)] }
      curLen := 40 + name.length + value.length }
  else
    { st with
      cur := { st.cur with fields := st.cur.fields ++ [(name, trimS value)] }
      curLen := st.curLen + name.length + value.length }

/-- The `for (const itemText of itemTexts)` accumulation loop. -/
def foldItems (name : Str) : BuildState × Str → List Str → BuildState × Str
  | st, [] => st
  | (st, fv), t :: ts =>
    if MAX_FIELD_LENGTH < fv.length + t.length then
      if 0 < fv.length then foldItems name (addField st name fv, t) ts
      else foldItems name (st, t) ts
    else foldItems name (st, fv ++ t) ts

/-- The end-of-group `if (fieldValue) { ... }` flush. -/
def groupFlush (p : BuildState × Str) (name : Str) : BuildState :=
  if 0 < p.2.length then addField p.1 name p.2 else p.1

/-- One group of `buildDigestEmbeds`'s main loop (empty groups are
skipped). -/
def processGroup (st : BuildState) (g : CategoryGroup) : BuildState :=
  if g.items.length = 0 then st
  else
    groupFlush
      (foldItems (fieldNameOf g) (st, [])
        (g.items.flatMap (fun it => splitForField (formatSingleItem it) MAX_FIELD_LENGTH)))
      (fieldNameOf g)

/-- The builder's initial state: the fresh titled embed and the
approximate title length of 30. -/
def initState (stats : DigestStats) : BuildState :=
  { finished := []
    cur := { title := digestTitle stats, description := [], fields := [] }
    curLen := 30 }

/-- The emitted embeds: everything flushed plus the one under
construction (which receives the footer in the source). -/
def finishEmbeds (st : BuildState) : List DigestEmbed :=
  st.finished ++ [st.cur]

/-- `DigestFormatter.buildDigestEmbeds`.  The footer/timestamp set on
the last embed are presentation-only and not modelled. -/
def buildDigestEmbeds (analyses : List BookmarkAnalysis) (stats : DigestStats) :
    List DigestEmbed :=
  if analyses.length = 0 then
    [{ title := emptyTitle, description := emptyDescription, fields := [] }]
  else finishEmbeds ((groupByCategory analyses).foldl processGroup (initState stats))

/-- A DisplayUnit's cumulative content: title, description and every
named section's name and value. -/
def embedContentLen (e : DigestEmbed) : Nat :=
  e.title.length + e.description.length +
    (e.fields.map (fun f => f.1.length + f.2.length)).sum

/- ## Size lemmas for the packager -/

theorem trimStartS_length_le (s : Str) : (trimStartS s).length ≤ s.length :=
  (List.dropWhile_sublist isWs).length_le

theorem trimEndS_length_le (s : Str) : (trimEndS s).length ≤ s.length := by
  have h := (List.dropWhile_sublist (l := s.reverse) isWs).length_le
  simpa [trimEndS] using h

theorem trimS_length_le (s : Str) : (trimS s).length ≤ s.length :=
  le_trans (trimEndS_length_le _) (trimStartS_length_le s)

theorem truncateText_length_le (t : Str) (m : Nat) (h3 : 3 ≤ m) :
    (truncateText t m).length ≤ m := by
  unfold truncateText
  split
  · assumption
  · simp [List.length_take]
    omega

theorem hardChunks_bounds :
    ∀ (fuel m : Nat) (rem : Str), rem.length ≤ fuel → 0 < m →
      (∀ c ∈ (hardChunks fuel m rem).1, c.length ≤ m) ∧
        (hardChunks fuel m rem).2.length ≤ m := by
  intro fuel
  induction fuel with
  | zero =>
    intro m rem hf hm
    have h0 : rem = [] := List.length_eq_zero.mp (by omega)
    subst h0
    exact ⟨fun c hc => absurd hc (List.not_mem_nil c), by simp [hardChunks]⟩
  | succ fuel ih =>
    intro m rem hf hm
    by_cases hlen : m < rem.length
    · have hr := ih m (rem.drop m) (by simp; omega) hm
      simp only [hardChunks, if_pos hlen]
      constructor
      · intro c hc
        rcases List.mem_cons.mp hc with rfl | hc'
        · simp [List.length_take]
        · exact hr.1 c hc'
      · exact hr.2
    · simp only [hardChunks, if_neg hlen]
      exact ⟨fun c hc => absurd hc (List.not_mem_nil c), by omega⟩

/-- The chunk-size invariant of `splitForField`'s loop state. -/
def ChunkInv (m : Nat) (st : List Str × Str) : Prop :=
  (∀ c ∈ st.1, c.length ≤ m) ∧ st.2.length ≤ m

theorem pushChunk_bounds {m : Nat} {chunks : List Str} {current : Str}
    (hc : ∀ c ∈ chunks, c.length ≤ m) (hcur : current.length ≤ m) :
    ∀ c ∈ pushChunk chunks current, c.length ≤ m := by
  intro c hmem
  unfold pushChunk at hmem
  split at hmem
  · rcases List.mem_append.mp hmem with h | h
    · exact hc c h
    · simp at h
      subst h
      exact le_trans (trimEndS_length_le _) hcur
  · exact hc c hmem

theorem splitStep_inv (m : Nat) (hm : 0 < m) (st : List Str × Str) (line : Str)
    (h : ChunkInv m st) : ChunkInv m (splitStep m st line) := by
  obtain ⟨hchunks, hcur⟩ := h
  simp only [splitStep]
  by_cases h1 : (if 0 < st.2.length then st.2 ++ '\n' :: line else line).length ≤ m
  · simp only [if_pos h1]
    exact ⟨hchunks, h1⟩
  · simp only [if_neg h1]
    by_cases h2 : line.length ≤ m
    · simp only [if_pos h2]
      exact ⟨pushChunk_bounds hchunks hcur, h2⟩
    · simp only [if_neg h2]
      have hh := hardChunks_bounds line.length m line le_rfl hm
      constructor
      · intro c hc
        rcases List.mem_append.mp hc with hcl | hcr
        · exact pushChunk_bounds hchunks hcur c hcl
        · exact hh.1 c hcr
      · exact hh.2

theorem foldl_splitStep_inv (m : Nat) (hm : 0 < m) :
    ∀ (ls : List Str) (st : List Str × Str), ChunkInv m st →
      ChunkInv m (ls.foldl (splitStep m) st) := by
  intro ls
  induction ls with
  | nil => intro st h; exact h
  | cons l ls ih =>
    intro st h
    exact ih _ (splitStep_inv m hm st l h)

theorem splitForField_chunk_le (text : Str) (m : Nat) (h3 : 3 ≤ m) :
    ∀ c ∈ splitForField text m, c.length ≤ m := by
  intro c hc
  by_cases htext : text.length ≤ m
  · rw [splitForField, if_pos htext] at hc
    simp at hc
    subst hc
    exact htext
  · rw [splitForField, if_neg htext] at hc
    have hinv := foldl_splitStep_inv m (by omega) (splitNl text) ([], [])
      ⟨fun c hc => absurd hc (List.not_mem_nil c), by simp⟩
    unfold splitFinish at hc
    split at hc
    · exact pushChunk_bounds hinv.1 hinv.2 c hc
    · simp at hc
      subst hc
      exact truncateText_length_le text m h3

/- ## Embed-size invariant -/

/-- Every stored section value respects the per-section cap. -/
def EmbedFieldsOk (e : DigestEmbed) : Prop :=
  ∀ f ∈ e.fields, f.2.length ≤ MAX_FIELD_LENGTH

/-- The builder invariant: the counter over-approximates the embed
under construction, both respect the per-unit cap, and every flushed
embed satisfies both caps. -/
def EmbedInv (st : BuildState) : Prop :=
  st.curLen ≤ MAX_EMBED_TOTAL ∧
  embedContentLen st.cur ≤ st.curLen ∧
  EmbedFieldsOk st.cur ∧
  ∀ e ∈ st.finished, embedContentLen e ≤ MAX_EMBED_TOTAL ∧ EmbedFieldsOk e

theorem contTitle_len : contTitle.length = 29 := by decide

theorem addField_inv (st : BuildState) (name value : Str)
    (hn : name.length ≤ 15) (hv : value.length ≤ MAX_FIELD_LENGTH)
    (h : EmbedInv st) : EmbedInv (addField st name value) := by
  obtain ⟨hlen, hcontent, hfields, hfin⟩ := h
  have htrim : (trimS value).length ≤ value.length := trimS_length_le value
  by_cases hov : MAX_EMBED_TOTAL < st.curLen + name.length + value.length
  · rw [addField, if_pos hov]
    refine ⟨?_, ?_, ?_, ?_⟩
    · show 40 + name.length + value.length ≤ MAX_EMBED_TOTAL
      simp only [MAX_EMBED_TOTAL, MAX_FIELD_LENGTH] at *
      omega
    · show embedContentLen _ ≤ 40 + name.length + value.length
      simp only [embedContentLen, List.map_cons, List.map_nil, List.sum_cons,
        List.sum_nil, List.length_nil, contTitle_len]
      omega
    · intro f hf
      simp only [List.mem_singleton] at hf
      subst hf
      exact le_trans htrim hv
    · intro e he
      rcases List.mem_append.mp he with h | h
      · exact hfin e h
      · simp at h
        subst h
        exact ⟨le_trans hcontent hlen, hfields⟩
  · rw [addField, if_neg hov]
    refine ⟨?_, ?_, ?_, hfin⟩
    · show st.curLen + name.length + value.length ≤ MAX_EMBED_TOTAL
      omega
    · show embedContentLen _ ≤ st.curLen + name.length + value.length
      simp only [embedContentLen, List.map_append, List.sum_append, List.map_cons,
        List.map_nil, List.sum_cons, List.sum_nil]
      simp only [embedContentLen] at hcontent
      omega
    · intro f hf
      rcases List.mem_append.mp hf with h | h
      · exact hfields f h
      · simp only [List.mem_singleton] at h
        subst h
        exact le_trans htrim hv

theorem foldItems_inv (name : Str) (hn : name.length ≤ 15) :
    ∀ (texts : List Str) (st : BuildState) (fv : Str),
      (∀ t ∈ texts, t.length ≤ MAX_FIELD_LENGTH) →
      EmbedInv st → fv.length ≤ MAX_FIELD_LENGTH →
      EmbedInv (foldItems name (st, fv) texts).1 ∧
        (foldItems name (st, fv) texts).2.length ≤ MAX_FIELD_LENGTH := by
  intro texts
  induction texts with
  | nil => intro st fv _ hst hfv; exact ⟨hst, hfv⟩
  | cons t ts ih =>
    intro st fv hts hst hfv
    have ht : t.length ≤ MAX_FIELD_LENGTH := hts t (List.mem_cons_self _ _)
    have hts' : ∀ t' ∈ ts, t'.length ≤ MAX_FIELD_LENGTH := by
      intro t' h'; exact hts t' (List.mem_cons_of_mem _ h')
    simp only [foldItems]
    split_ifs with h1 h2
    · exact ih (addField st name fv) t hts' (addField_inv st name fv hn hfv hst) ht
    · exact ih st t hts' hst ht
    · refine ih st (fv ++ t) hts' hst ?_
      simp only [List.length_append]
      simp only [MAX_FIELD_LENGTH] at *
      omega

theorem catNameUpper_le (c : BookmarkCategory) : (catNameUpper c).length ≤ 13 := by
  cases c <;> decide

theorem fieldNameOf_le (g : CategoryGroup) : (fieldNameOf g).length ≤ 15 := by
  have h := catNameUpper_le g.category
  simp [fieldNameOf]
  omega

theorem processGroup_inv (st : BuildState) (g : CategoryGroup) (h : EmbedInv st) :
    EmbedInv (processGroup st g) := by
  rw [processGroup]
  split_ifs with hempty
  · exact h
  · have htexts : ∀ t ∈ g.items.flatMap
        (fun it => splitForField (formatSingleItem it) MAX_FIELD_LENGTH),
        t.length ≤ MAX_FIELD_LENGTH := by
      intro t ht
      rcases List.mem_flatMap.mp ht with ⟨it, _, hsp⟩
      exact splitForField_chunk_le _ _ (by decide) t hsp
    have hp := foldItems_inv (fieldNameOf g) (fieldNameOf_le g) _ st [] htexts h
      (by simp [MAX_FIELD_LENGTH])
    rw [groupFlush]
    split_ifs with hfv
    · exact addField_inv _ _ _ (fieldNameOf_le g) hp.2 hp.1
    · exact hp.1

theorem foldl_processGroup_inv :
    ∀ (groups : List CategoryGroup) (st : BuildState), EmbedInv st →
      EmbedInv (groups.foldl processGroup st) := by
  intro groups
  induction groups with
  | nil => intro st h; exact h
  | cons g gs ih => intro st h; exact ih _ (processGroup_inv st g h)

/- ## Decimal length bound -/

theorem natStrAux_len : ∀ (fuel n k : Nat), n < 10 ^ k → (natStrAux fuel n).length ≤ k := by
  intro fuel
  induction fuel with
  | zero => intro n k _; simp [natStrAux]
  | succ fuel ih =>
    intro n k hk
    by_cases hn : n = 0
    · simp [natStrAux, hn]
    · have hkpos : 0 < k := by
        by_contra hcon
        have hk0 : k = 0 := by omega
        subst hk0
        simp at hk
        omega
      simp only [natStrAux, if_neg hn, List.length_append, List.length_cons,
        List.length_nil]
      have hpow : 10 ^ (k - 1) * 10 = 10 ^ k := by
        rw [← pow_succ]
        congr 1
        omega
      have hdiv : n / 10 < 10 ^ (k - 1) := by
        rw [Nat.div_lt_iff_lt_mul (by norm_num)]
        omega
      have := ih (n / 10) (k - 1) hdiv
      omega

theorem natStr_len (n : Nat) (h : n ≤ 999999) : (natStr n).length ≤ 6 := by
  unfold natStr
  split_ifs with h0
  · simp
  · have h6 : (10:Nat) ^ 6 = 1000000 := by norm_num
    exact natStrAux_len n n 6 (by omega)

theorem digestTitle_len (stats : DigestStats) (h : stats.newCount ≤ 999999) :
    (digestTitle stats).length ≤ 30 := by
  have h1 : ("📚 Bookmark Digest (".toList).length = 19 := by decide
  have h2 : (" new)".toList).length = 5 := by decide
  have h3 := natStr_len stats.newCount h
  simp only [digestTitle, List.length_append, h1, h2]
  omega

/- ## Claim C2 -/

/-- C2: every named section value the packager emits is at most 1024
long, and every DisplayUnit's cumulative content (title, description
and all named sections) is at most 5800, for any input whose displayed
new-item count stays below one million (the builder's title-length
approximation covers counts of up to six digits). -/
theorem claim_C2_packager_caps (analyses : List BookmarkAnalysis) (stats : DigestStats)
    (hN : stats.newCount ≤ 999999) :
    ∀ e ∈ buildDigestEmbeds analyses stats,
      embedContentLen e ≤ 5800 ∧ ∀ f ∈ e.fields, f.2.length ≤ 1024 := by
  intro e he
  unfold buildDigestEmbeds at he
  split_ifs at he with hempty
  · simp at he
    subst he
    exact ⟨by decide, by simp⟩
  · have hinit : EmbedInv (initState stats) := by
      refine ⟨by simp [initState, MAX_EMBED_TOTAL], ?_, by simp [initState, EmbedFieldsOk],
        by simp [initState]⟩
      show embedContentLen { title := digestTitle stats, description := [], fields := [] } ≤ 30
      simp only [embedContentLen, List.map_nil, List.sum_nil, List.length_nil]
      have := digestTitle_len stats hN
      omega
    have hfin := foldl_processGroup_inv (groupByCategory analyses) _ hinit
    obtain ⟨hlen, hcontent, hfields, hflushed⟩ := hfin
    rw [finishEmbeds] at he
    rcases List.mem_append.mp he with h | h
    · have := hflushed e h
      exact ⟨this.1, this.2⟩
    · simp at h
      subst h
      exact ⟨le_trans hcontent hlen, hfields⟩

theorem claim_C2_witness :
    (1 : Nat) ≤ 999999 ∧
    ∀ e ∈ buildDigestEmbeds [cxAnalysis] { newCount := 1 },
      embedContentLen e ≤ 5800 ∧ ∀ f ∈ e.fields, f.2.length ≤ 1024 :=
  ⟨by decide, claim_C2_packager_caps [cxAnalysis] { newCount := 1 } (by decide)⟩

/- ## Link Context Enricher (url-enricher.ts; the file holds two
versions of the service, with and without X auth options) -/

/-- Outcome of one HTTP exchange for a URL, as the oracle `net` reports
it: `failed` covers a request error or the 5 s timeout (the handlers at
the end of `fetchUrlMetadata`), `redirect` a 3xx response carrying a
`Location` header (its body yields no metadata), and `page` a delivered
body abstracted by what the og/twitter/title extraction chain recovers
from it (`none` for a malformed body with no usable tags, and an empty
extraction result is normalised like the empty string). -/
inductive NetOut where
  | failed
  | redirect (location : Str)
  | page (title : Option Str) (description : Option Str)
deriving DecidableEq

/-- The parts of `new URL(url)` the enricher reads. -/
structure UrlParts where
  protocol : Str
  host : Str
  hostname : Str
deriving DecidableEq

structure UrlMetadata where
  url : Str
  domain : Str
  title : Option Str
  description : Option Str
deriving DecidableEq

structure XAuthOptions where
  authToken : Option Str
  ct0 : Option Str
deriving DecidableEq

/-- JS truthiness of an optional string field. -/
def optTruthy (o : Option Str) : Bool :=
  match o with
  | some s => !s.isEmpty
  | none => false

def asciiLower (c : Char) : Char :=
  if 'A' ≤ c && c ≤ 'Z' then Char.ofNat (c.toNat + 32) else c

def dropExact (pre s : Str) : Option Str :=
  if pre.isPrefixOf s then some (s.drop pre.length) else none

/-- Model of the runtime's `new URL` for the fields the enricher uses:
scheme before `://` (required non-empty, else the constructor throws),
host up to the first `/`, `?` or `#` (required non-empty), hostname
without the port; scheme and host lowercased. -/
def splitScheme : Str → Option (Str × Str)
  | [] => none
  | c :: rest =>
    if ("://".toList).isPrefixOf (c :: rest) then some ([], (c :: rest).drop 3)
    else
      match splitScheme rest with
      | some (sch, r) => some (c :: sch, r)
      | none => none

def parseUrl (url : Str) : Option UrlParts :=
  match splitScheme url with
  | none => none
  | some (scheme, rest) =>
    if scheme.isEmpty then none
    else
      if (rest.takeWhile (fun c => c ≠ '/' && c ≠ '?' && c ≠ '#')).isEmpty then none
      else
        some
          { protocol := scheme.map asciiLower ++ [':']
            host := (rest.takeWhile (fun c => c ≠ '/' && c ≠ '?' && c ≠ '#')).map asciiLower
            hostname :=
              ((rest.takeWhile (fun c => c ≠ '/' && c ≠ '?' && c ≠ '#')).map
                  asciiLower).takeWhile (fun c => c ≠ ':') }

/-- `parsedUrl.hostname.replace(/^www\./, '')`. -/
def hostNoWww (p : UrlParts) : Str :=
  if ("www.".toList).isPrefixOf p.hostname then p.hostname.drop 4 else p.hostname

/-- The X status pattern
`/^https?:\/\/(?:twitter\.com|x\.com)\/\w+\/status\/(\d+)/i`; returns
the captured status id digits. -/
def xStatusMatch (url : Str) : Option Str :=
  match dropExact ("http".toList) (url.map asciiLower) with
  | none => none
  | some r₀ =>
    match dropExact ("://".toList)
        (match dropExact ("s".toList) r₀ with
        | some r => r
        | none => r₀) with
    | none => none
    | some r₂ =>
      match
        (match dropExact ("twitter.com/".toList) r₂ with
        | some r => some r
        | none => dropExact ("x.com/".toList) r₂) with
      | none => none
      | some r₃ =>
        if (r₃.takeWhile isWordChar).isEmpty then none
        else
          match dropExact ("/status/".toList) (r₃.dropWhile isWordChar) with
          | none => none
          | some r₅ =>
            if (r₅.takeWhile (fun c => c.isDigit)).isEmpty then none
            else some (r₅.takeWhile (fun c => c.isDigit))

/-- `fetchXTweetContent` (the authed version's bird-CLI path);
`birdRead` models `bird read <id> --json`, `none` covering non-zero
exit, spawn failure and malformed JSON. -/
def fetchXTweetContent (url : Str) (tweetId : Str) (auth : XAuthOptions)
    (birdRead : Str → Option BirdBookmark) : UrlMetadata :=
  if !(optTruthy auth.authToken && optTruthy auth.ct0) then
    { url := url, domain := "x.com".toList, title := none, description := none }
  else
    match birdRead tweetId with
    | none => { url := url, domain := "x.com".toList, title := none, description := none }
    | some tweet =>
      match tweet.article with
      | some art =>
        { url := url
          domain := "x.com".toList
          title := some ("X Article: \"".toList ++ art.title ++ "\"".toList)
          description := some (jsOrStr art.previewText (tweet.text.take 300)) }
      | none =>
        { url := url
          domain := "x.com".toList
          title :=
            some
              ("@".toList ++ tweet.author.username ++ ": \"".toList ++
                tweet.text.take 100 ++
                (if 100 < tweet.text.length then "...".toList else []) ++ "\"".toList)
          description := some (tweet.text.take 300) }

/-- `title ? title.slice(0, cap) : null` (the empty string is falsy). -/
def normMeta (o : Option Str) (cap : Nat) : Option Str :=
  match o with
  | some s => if s.isEmpty then none else some (s.take cap)
  | none => none

/-- Relative redirect resolution (`redirectUrl.startsWith('/')`). -/
def resolveRedirect (p : UrlParts) (loc : Str) : Str :=
  if ("/".toList).isPrefixOf loc then p.protocol ++ "//".toList ++ p.host ++ loc else loc

/-- The authed version's short-circuit guard
`xMatch && authOptions?.authToken && authOptions?.ct0`. -/
def xShortCircuit (url : Str) (auth : Option XAuthOptions) : Option (Str × XAuthOptions) :=
  match xStatusMatch url, auth with
  | some tid, some a =>
    if optTruthy a.authToken && optTruthy a.ct0 then some (tid, a) else none
  | _, _ => none

/-- `fetchUrlMetadata` of the authed version (url-enricher.ts, first
copy): x.com/twitter.com status URLs with credentials go through the
bird CLI, everything else through the generic HTTP fetch with up to
`redirectsLeft` redirect hops, every failure resolving to null
metadata. -/
def fetchUrlMetadataA (net : Str → NetOut) (birdRead : Str → Option BirdBookmark)
    (auth : Option XAuthOptions) : Nat → Str → Option Str → UrlMetadata
  | n, url, originalUrl =>
    match xShortCircuit url auth with
    | some (tid, a) =>
      { fetchXTweetContent url tid a birdRead with url := originalUrl.getD url }
    | none =>
      match parseUrl url with
      | none =>
        { url := originalUrl.getD url, domain := "unknown".toList,
          title := none, description := none }
      | some pu =>
        match net url with
        | NetOut.failed =>
          { url := originalUrl.getD url, domain := "unknown".toList,
            title := none, description := none }
        | NetOut.redirect loc =>
          match n with
          | m + 1 =>
            fetchUrlMetadataA net birdRead auth m (resolveRedirect pu loc)
              (some (originalUrl.getD url))
          | 0 =>
            { url := originalUrl.getD url, domain := hostNoWww pu,
              title := none, description := none }
        | NetOut.page t d =>
          { url := originalUrl.getD url, domain := hostNoWww pu,
            title := normMeta t 200, description := normMeta d 300 }

/-- `fetchUrlMetadata` of the second, auth-less version (url-enricher.ts,
second copy): identical generic fetch without the bird short-circuit. -/
def fetchUrlMetadataB (net : Str → NetOut) : Nat → Str → Option Str → UrlMetadata
  | n, url, originalUrl =>
    match parseUrl url with
    | none =>
      { url := originalUrl.getD url, domain := "unknown".toList,
        title := none, description := none }
    | some pu =>
      match net url with
      | NetOut.failed =>
        { url := originalUrl.getD url, domain := "unknown".toList,
          title := none, description := none }
      | NetOut.redirect loc =>
        match n with
        | m + 1 =>
          fetchUrlMetadataB net m (resolveRedirect pu loc) (some (originalUrl.getD url))
        | 0 =>
          { url := originalUrl.getD url, domain := hostNoWww pu,
            title := none, description := none }
      | NetOut.page t d =>
        { url := originalUrl.getD url, domain := hostNoWww pu,
          title := normMeta t 200, description := normMeta d 300 }

/-- One step of the `/https?:\/\/[^\s]+/g` scan: the match at the
current position, if any, and the rest of the text after it. -/
def matchUrlAt (s : Str) : Option (Str × Str) :=
  if ("https://".toList).isPrefixOf s then
    if ((s.drop 8).takeWhile (fun c => !isWs c)).isEmpty then none
    else
      some ("https://".toList ++ (s.drop 8).takeWhile (fun c => !isWs c),
        (s.drop 8).dropWhile (fun c => !isWs c))
  else if ("http://".toList).isPrefixOf s then
    if ((s.drop 7).takeWhile (fun c => !isWs c)).isEmpty then none
    else
      some ("http://".toList ++ (s.drop 7).takeWhile (fun c => !isWs c),
        (s.drop 7).dropWhile (fun c => !isWs c))
  else none

def findUrlsAux : Nat → Str → List Str
  | 0, _ => []
  | fuel + 1, s =>
    match s with
    | [] => []
    | _ :: rest =>
      match matchUrlAt s with
      | some (tok, after) => tok :: findUrlsAux fuel after
      | none => findUrlsAux fuel rest

/-- `text.match(/https?:\/\/[^\s]+/g) || []`: left-to-right,
non-overlapping maximal matches. -/
def findUrlsInText (t : Str) : List Str := findUrlsAux t.length t

/-- `extractUrls` of the authed version. -/
def extractUrlsA (b : BirdBookmark) : List Str :=
  if 0 < b.urls.length then b.urls.map (fun u => u.expandedUrl)
  else findUrlsInText b.text

/-- `extractUrls` of the auth-less version (textually identical). -/
def extractUrlsB (b : BirdBookmark) : List Str :=
  if 0 < b.urls.length then b.urls.map (fun u => u.expandedUrl)
  else findUrlsInText b.text

/-- The `urlsByBookmark` map: insertion-ordered, only bookmarks with at
least one candidate URL get an entry (identical loop in both
versions). -/
def urlsByBookmarkWith (extract : BirdBookmark → List Str)
    (bookmarks : List BirdBookmark) : List (Str × List Str) :=
  bookmarks.foldl
    (fun m b => if (extract b).isEmpty then m else setKey m b.id (extract b)) []

/-- `[...new Set(list)]`: deduplication keeping first occurrences. -/
def dedupFirst (l : List Str) : List Str :=
  l.foldl (fun acc u => if u ∈ acc then acc else acc ++ [u]) []

def allUrlsOf (ubb : List (Str × List Str)) : List Str :=
  dedupFirst (ubb.flatMap (fun e => e.2))

/-- The `metadataCache`: every unique URL is fetched and stored under
`meta.url` (the batching in waves of 5 only orders the awaits and does
not affect the final cache contents). -/
def buildCache (fetch : Str → UrlMetadata) (allUrls : List Str) :
    List (Str × UrlMetadata) :=
  allUrls.foldl (fun m u => setKey m (fetch u).url (fetch u)) []

/-- One context line: `[domain]` plus title and description when truthy
(identical in both versions). -/
def enrichmentLine (meta : UrlMetadata) : Str :=
  "[".toList ++ meta.domain ++ "]".toList ++
    (match meta.title with
    | some t => if t.isEmpty then [] else " \"".toList ++ t ++ "\"".toList
    | none => []) ++
    (match meta.description with
    | some d => if d.isEmpty then [] else " — ".toList ++ d
    | none => [])

def bookmarkParts (cache : List (Str × UrlMetadata)) (urls : List Str) : List Str :=
  urls.filterMap
    (fun url =>
      match findVal cache url with
      | none => none
      | some meta => some (enrichmentLine meta))

/-- The final enrichment map build (identical loop in both versions):
an entry per bookmark whose parts list is non-empty. -/
def enrichFold (cache : List (Str × UrlMetadata)) (ubb : List (Str × List Str)) :
    List (Str × Str) :=
  ubb.foldl
    (fun acc e =>
      if (bookmarkParts cache e.2).isEmpty then acc
      else setKey acc e.1 (List.intercalate ['\n'] (bookmarkParts cache e.2)))
    []

/-- `enrichBookmarksWithUrls`, authed version (url-enricher.ts, first
copy). -/
def enrichBookmarksWithUrlsA (bookmarks : List BirdBookmark)
    (auth : Option XAuthOptions) (net : Str → NetOut)
    (birdRead : Str → Option BirdBookmark) : List (Str × Str) :=
  enrichFold
    (buildCache (fun u => fetchUrlMetadataA net birdRead auth 5 u none)
      (allUrlsOf (urlsByBookmarkWith extractUrlsA bookmarks)))
    (urlsByBookmarkWith extractUrlsA bookmarks)

/-- `enrichBookmarksWithUrls`, auth-less version (url-enricher.ts,
second copy). -/
def enrichBookmarksWithUrlsB (bookmarks : List BirdBookmark)
    (net : Str → NetOut) : List (Str × Str) :=
  enrichFold
    (buildCache (fun u => fetchUrlMetadataB net 5 u none)
      (allUrlsOf (urlsByBookmarkWith extractUrlsB bookmarks)))
    (urlsByBookmarkWith extractUrlsB bookmarks)

/- ## Claim C10: the two enricher versions agree without auth options -/

theorem xShortCircuit_none_auth (url : Str) : xShortCircuit url none = none := by
  unfold xShortCircuit
  cases xStatusMatch url <;> rfl

theorem fetchUrlMetadataA_noauth (net : Str → NetOut)
    (birdRead : Str → Option BirdBookmark) :
    ∀ (n : Nat) (url : Str) (originalUrl : Option Str),
      fetchUrlMetadataA net birdRead none n url originalUrl =
        fetchUrlMetadataB net n url originalUrl := by
  intro n
  induction n with
  | zero =>
    intro url orig
    rw [fetchUrlMetadataA, fetchUrlMetadataB]
    simp only [xShortCircuit_none_auth]
  | succ m ih =>
    intro url orig
    rw [fetchUrlMetadataA, fetchUrlMetadataB]
    simp only [xShortCircuit_none_auth]
    cases hpu : parseUrl url
    · rfl
    · cases hnet : net url
      · rfl
      · exact ih _ _
      · rfl

/-- C10: called with no auth options, the authed version of
`enrichBookmarksWithUrls` produces exactly the mapping the auth-less
version produces, for every bookmark list and every behaviour of the
network and the bird CLI. -/
theorem claim_C10_enrich_equiv (bookmarks : List BirdBookmark) (net : Str → NetOut)
    (birdRead : Str → Option BirdBookmark) :
    enrichBookmarksWithUrlsA bookmarks none net birdRead =
      enrichBookmarksWithUrlsB bookmarks net := by
  have hext : extractUrlsA = extractUrlsB := rfl
  have hfetch : (fun u => fetchUrlMetadataA net birdRead none 5 u none) =
      (fun u => fetchUrlMetadataB net 5 u none) :=
    funext (fun u => fetchUrlMetadataA_noauth net birdRead 5 u none)
  rw [enrichBookmarksWithUrlsA, enrichBookmarksWithUrlsB, hext, hfetch]

/- ## Claim C6: failure handling and the enrichment map's domain -/

theorem fetchUrlMetadataA_url (net : Str → NetOut)
    (birdRead : Str → Option BirdBookmark) (auth : Option XAuthOptions) :
    ∀ (n : Nat) (url : Str) (orig : Option Str),
      (fetchUrlMetadataA net birdRead auth n url orig).url = orig.getD url := by
  intro n
  induction n with
  | zero =>
    intro url orig
    rw [fetchUrlMetadataA]
    cases hx : xShortCircuit url auth with
    | some p => rfl
    | none =>
      cases parseUrl url
      · rfl
      · cases net url <;> rfl
  | succ m ih =>
    intro url orig
    rw [fetchUrlMetadataA]
    cases hx : xShortCircuit url auth with
    | some p => rfl
    | none =>
      cases hpu : parseUrl url
      · rfl
      · cases hnet : net url
        · rfl
        · rw [ih]
          rfl
        · rfl

theorem findVal_ne_none_iff {β : Type} :
    ∀ (m : List (Str × β)) (k : Str), findVal m k ≠ none ↔ ∃ e ∈ m, e.1 = k := by
  intro m k
  induction m with
  | nil =>
    constructor
    · intro hne
      exact absurd rfl hne
    · rintro ⟨e, he, _⟩
      exact absurd he (List.not_mem_nil e)
  | cons e rest ih =>
    obtain ⟨k', v⟩ := e
    by_cases h : k' = k
    · subst h
      constructor
      · intro _
        exact ⟨(k', v), List.mem_cons_self _ _, rfl⟩
      · intro _
        rw [findVal, if_pos rfl]
        simp
    · constructor
      · intro hne
        rw [findVal, if_neg h] at hne
        rcases ih.mp hne with ⟨e, he, hk⟩
        exact ⟨e, List.mem_cons_of_mem _ he, hk⟩
      · intro hex
        rcases hex with ⟨e, he, hk⟩
        rcases List.mem_cons.mp he with rfl | he'
        · exact absurd hk h
        · rw [findVal, if_neg h]
          exact ih.mpr ⟨e, he', hk⟩

theorem mem_setKey {β : Type} :
    ∀ (m : List (Str × β)) (k : Str) (v : β) (e : Str × β),
      e ∈ setKey m k v → e = (k, v) ∨ e ∈ m := by
  intro m k v e he
  induction m with
  | nil =>
    simp [setKey] at he
    exact Or.inl he
  | cons hd tl ih =>
    obtain ⟨k', v'⟩ := hd
    rw [setKey] at he
    split_ifs at he with hk
    · rcases List.mem_cons.mp he with rfl | he'
      · subst hk
        exact Or.inl rfl
      · exact Or.inr (List.mem_cons_of_mem _ he')
    · rcases List.mem_cons.mp he with rfl | he'
      · exact Or.inr (List.mem_cons_self _ _)
      · rcases ih he' with h | h
        · exact Or.inl h
        · exact Or.inr (List.mem_cons_of_mem _ h)

theorem urlsByBookmark_mem (extract : BirdBookmark → List Str) :
    ∀ (bs : List BirdBookmark) (m : List (Str × List Str)) (e : Str × List Str),
      e ∈ bs.foldl
          (fun m b => if (extract b).isEmpty then m else setKey m b.id (extract b)) m →
      (∃ b ∈ bs, e.1 = b.id ∧ e.2 = extract b ∧ ¬(extract b).isEmpty = true) ∨ e ∈ m := by
  intro bs
  induction bs with
  | nil => intro m e he; exact Or.inr he
  | cons b rest ih =>
    intro m e he
    simp only [List.foldl_cons] at he
    by_cases hb : (extract b).isEmpty
    · rw [if_pos hb] at he
      rcases ih m e he with ⟨b', hb', h⟩ | h
      · exact Or.inl ⟨b', List.mem_cons_of_mem _ hb', h⟩
      · exact Or.inr h
    · rw [if_neg hb] at he
      rcases ih _ e he with ⟨b', hb', h⟩ | h
      · exact Or.inl ⟨b', List.mem_cons_of_mem _ hb', h⟩
      · rcases mem_setKey m b.id (extract b) e h with rfl | h'
        · exact Or.inl ⟨b, List.mem_cons_self _ _, rfl, rfl, hb⟩
        · exact Or.inr h'

theorem urlsByBookmark_domain (extract : BirdBookmark → List Str) :
    ∀ (bs : List BirdBookmark) (m : List (Str × List Str)) (k : Str),
      findVal
          (bs.foldl
            (fun m b => if (extract b).isEmpty then m else setKey m b.id (extract b)) m)
          k ≠ none ↔
        (∃ b ∈ bs, b.id = k ∧ ¬(extract b).isEmpty = true) ∨ findVal m k ≠ none := by
  intro bs
  induction bs with
  | nil =>
    intro m k
    simp
  | cons b rest ih =>
    intro m k
    simp only [List.foldl_cons]
    by_cases hb : (extract b).isEmpty
    · rw [if_pos hb, ih]
      constructor
      · rintro (⟨b', hb', hk, hne⟩ | h)
        · exact Or.inl ⟨b', List.mem_cons_of_mem _ hb', hk, hne⟩
        · exact Or.inr h
      · rintro (⟨b', hb', hk, hne⟩ | h)
        · rcases List.mem_cons.mp hb' with rfl | hb''
          · exact absurd hb hne
          · exact Or.inl ⟨b', hb'', hk, hne⟩
        · exact Or.inr h
    · rw [if_neg hb, ih]
      have hset : findVal (setKey m b.id (extract b)) k ≠ none ↔
          b.id = k ∨ findVal m k ≠ none := by
        rw [findVal_setKey]
        by_cases hbk : b.id = k <;> simp [hbk]
      rw [hset]
      constructor
      · rintro (⟨b', hb', hk, hne⟩ | h | h)
        · exact Or.inl ⟨b', List.mem_cons_of_mem _ hb', hk, hne⟩
        · exact Or.inl ⟨b, List.mem_cons_self _ _, h, hb⟩
        · exact Or.inr h
      · rintro (⟨b', hb', hk, hne⟩ | h)
        · rcases List.mem_cons.mp hb' with rfl | hb''
          · exact Or.inr (Or.inl hk)
          · exact Or.inl ⟨b', hb'', hk, hne⟩
        · exact Or.inr (Or.inr h)

theorem mem_dedupFirst_aux :
    ∀ (l acc : List Str) (u : Str),
      u ∈ l.foldl (fun acc u => if u ∈ acc then acc else acc ++ [u]) acc ↔
        u ∈ l ∨ u ∈ acc := by
  intro l
  induction l with
  | nil => intro acc u; simp
  | cons v vs ih =>
    intro acc u
    simp only [List.foldl_cons]
    by_cases hv : v ∈ acc
    · rw [if_pos hv, ih]
      constructor
      · rintro (h | h)
        · exact Or.inl (List.mem_cons_of_mem _ h)
        · exact Or.inr h
      · rintro (h | h)
        · rcases List.mem_cons.mp h with rfl | h'
          · exact Or.inr hv
          · exact Or.inl h'
        · exact Or.inr h
    · rw [if_neg hv, ih]
      constructor
      · rintro (h | h)
        · exact Or.inl (List.mem_cons_of_mem _ h)
        · rcases List.mem_append.mp h with h' | h'
          · exact Or.inr h'
          · simp at h'
            subst h'
            exact Or.inl (List.mem_cons_self _ _)
      · rintro (h | h)
        · rcases List.mem_cons.mp h with rfl | h'
          · exact Or.inr (List.mem_append.mpr (Or.inr (by simp)))
          · exact Or.inl h'
        · exact Or.inr (List.mem_append.mpr (Or.inl h))

theorem mem_dedupFirst (l : List Str) (u : Str) : u ∈ dedupFirst l ↔ u ∈ l := by
  rw [dedupFirst, mem_dedupFirst_aux]
  simp

theorem buildCache_hit (fetch : Str → UrlMetadata) (hurl : ∀ u, (fetch u).url = u) :
    ∀ (us : List Str) (m : List (Str × UrlMetadata)) (u : Str),
      (u ∈ us ∨ findVal m u ≠ none) →
      findVal (us.foldl (fun m u => setKey m (fetch u).url (fetch u)) m) u ≠ none := by
  intro us
  induction us with
  | nil =>
    intro m u h
    rcases h with h | h
    · exact absurd h (List.not_mem_nil u)
    · exact h
  | cons v vs ih =>
    intro m u h
    simp only [List.foldl_cons]
    apply ih
    rcases h with h | h
    · rcases List.mem_cons.mp h with rfl | h'
      · right
        rw [hurl, findVal_setKey, if_pos rfl]
        simp
      · left
        exact h'
    · right
      rw [hurl, findVal_setKey]
      by_cases hvu : v = u <;> simp [hvu, h]

theorem enrichFold_domain (cache : List (Str × UrlMetadata)) :
    ∀ (ubb : List (Str × List Str)) (acc : List (Str × Str)) (k : Str),
      findVal (ubb.foldl
          (fun acc e =>
            if (bookmarkParts cache e.2).isEmpty then acc
            else setKey acc e.1 (List.intercalate ['\n'] (bookmarkParts cache e.2)))
          acc) k ≠ none ↔
        (∃ e ∈ ubb, e.1 = k ∧ ¬(bookmarkParts cache e.2).isEmpty = true) ∨
          findVal acc k ≠ none := by
  intro ubb
  induction ubb with
  | nil => intro acc k; simp
  | cons e rest ih =>
    intro acc k
    simp only [List.foldl_cons]
    by_cases hp : (bookmarkParts cache e.2).isEmpty
    · rw [if_pos hp, ih]
      constructor
      · rintro (⟨e', he', hk, hne⟩ | h)
        · exact Or.inl ⟨e', List.mem_cons_of_mem _ he', hk, hne⟩
        · exact Or.inr h
      · rintro (⟨e', he', hk, hne⟩ | h)
        · rcases List.mem_cons.mp he' with rfl | he''
          · exact absurd hp hne
          · exact Or.inl ⟨e', he'', hk, hne⟩
        · exact Or.inr h
    · rw [if_neg hp, ih]
      have hset : findVal (setKey acc e.1
          (List.intercalate ['\n'] (bookmarkParts cache e.2))) k ≠ none ↔
          e.1 = k ∨ findVal acc k ≠ none := by
        rw [findVal_setKey]
        by_cases hek : e.1 = k <;> simp [hek]
      rw [hset]
      constructor
      · rintro (⟨e', he', hk, hne⟩ | h | h)
        · exact Or.inl ⟨e', List.mem_cons_of_mem _ he', hk, hne⟩
        · exact Or.inl ⟨e, List.mem_cons_self _ _, h, hp⟩
        · exact Or.inr h
      · rintro (⟨e', he', hk, hne⟩ | h)
        · rcases List.mem_cons.mp he' with rfl | he''
          · exact Or.inr (Or.inl hk)
          · exact Or.inl ⟨e', he'', hk, hne⟩
        · exact Or.inr (Or.inr h)

/-- Every entry of the enricher's per-bookmark URL map yields at least
one context line: all of its URLs are in the cache (keyed by the very
URL that was fetched). -/
theorem bookmarkParts_ne_empty (extract : BirdBookmark → List Str)
    (fetch : Str → UrlMetadata) (hurl : ∀ u, (fetch u).url = u)
    (bookmarks : List BirdBookmark) (e : Str × List Str)
    (he : e ∈ urlsByBookmarkWith extract bookmarks) :
    ¬(bookmarkParts
        (buildCache fetch (allUrlsOf (urlsByBookmarkWith extract bookmarks)))
        e.2).isEmpty = true := by
  rcases urlsByBookmark_mem extract bookmarks [] e he with ⟨b, _, _, hurls, hne⟩ | habs
  · have hnonempty : e.2 ≠ [] := by
      rw [hurls]
      intro hc
      rw [hc] at hne
      exact hne rfl
    rcases List.exists_mem_of_ne_nil e.2 hnonempty with ⟨u₀, hu₀⟩
    have hu₀all : u₀ ∈ allUrlsOf (urlsByBookmarkWith extract bookmarks) := by
      rw [allUrlsOf, mem_dedupFirst]
      exact List.mem_flatMap.mpr ⟨e, he, hu₀⟩
    have hhit := buildCache_hit fetch hurl
      (allUrlsOf (urlsByBookmarkWith extract bookmarks)) [] u₀ (Or.inl hu₀all)
    rcases hmeta : findVal
        (buildCache fetch (allUrlsOf (urlsByBookmarkWith extract bookmarks))) u₀ with
      _ | meta
    · exact absurd hmeta hhit
    · have hline : enrichmentLine meta ∈ bookmarkParts
          (buildCache fetch (allUrlsOf (urlsByBookmarkWith extract bookmarks))) e.2 := by
        apply List.mem_filterMap.mpr
        refine ⟨u₀, hu₀, ?_⟩
        rw [hmeta]
      intro hc
      rw [List.isEmpty_iff] at hc
      rw [hc] at hline
      exact absurd hline (List.not_mem_nil _)
  · exact absurd habs (List.not_mem_nil e)

theorem xShortCircuit_truthy (url : Str) (auth : Option XAuthOptions) (tid : Str)
    (a : XAuthOptions) (h : xShortCircuit url auth = some (tid, a)) :
    (optTruthy a.authToken && optTruthy a.ct0) = true := by
  cases auth with
  | none =>
    rw [xShortCircuit_none_auth] at h
    simp at h
  | some a' =>
    revert h
    unfold xShortCircuit
    cases hxm : xStatusMatch url with
    | none => intro h; simp at h
    | some tid' =>
      intro h
      have h' : (if (optTruthy a'.authToken && optTruthy a'.ct0) = true
          then some (tid', a') else (none : Option (Str × XAuthOptions))) =
          some (tid, a) := h
      split_ifs at h' with hc
      simp at h'
      rw [← h'.2]
      exact hc

/-- C6 (amended): any URL fetch failure, timeout or metadata-less
response yields null title and description for that URL (both on the
generic path and on the bird-CLI path) and never fails the batch (the
enricher is a total function); and the returned mapping's domain is
exactly the set of ids of bookmarks with at least one candidate URL —
an item whose URLs all yielded no metadata is still present, its
context lines then carrying only the domain marker, rather than being
omitted. -/
theorem claim_C6_enricher (bookmarks : List BirdBookmark) (auth : Option XAuthOptions)
    (net : Str → NetOut) (birdRead : Str → Option BirdBookmark) :
    (∀ (url : Str) (n : Nat), net url = NetOut.failed →
      xShortCircuit url auth = none →
      fetchUrlMetadataA net birdRead auth n url none =
        { url := url, domain := "unknown".toList, title := none, description := none }) ∧
    (∀ (url tid : Str) (a : XAuthOptions) (n : Nat),
      xShortCircuit url auth = some (tid, a) → birdRead tid = none →
      fetchUrlMetadataA net birdRead auth n url none =
        { url := url, domain := "x.com".toList, title := none, description := none }) ∧
    (∀ id : Str,
      findVal (enrichBookmarksWithUrlsA bookmarks auth net birdRead) id ≠ none ↔
        ∃ b ∈ bookmarks, b.id = id ∧ ¬(extractUrlsA b).isEmpty = true) := by
  refine ⟨?_, ?_, ?_⟩
  · intro url n hfail hx
    rw [fetchUrlMetadataA]
    simp only [hx]
    cases parseUrl url
    · rfl
    · simp only [hfail]
      rfl
  · intro url tid a n hx hbird
    rw [fetchUrlMetadataA]
    simp only [hx]
    rw [fetchXTweetContent]
    rw [xShortCircuit_truthy url auth tid a hx]
    simp only [hbird]
    rfl
  · intro id
    rw [enrichBookmarksWithUrlsA, enrichFold]
    rw [enrichFold_domain _ (urlsByBookmarkWith extractUrlsA bookmarks) [] id]
    have hurl : ∀ u,
        (fetchUrlMetadataA net birdRead auth 5 u none).url = u := by
      intro u
      rw [fetchUrlMetadataA_url]
      rfl
    constructor
    · rintro (⟨e, he, hk, _⟩ | habs)
      · have hub := (findVal_ne_none_iff (urlsByBookmarkWith extractUrlsA bookmarks)
          id).mpr ⟨e, he, hk⟩
        rw [urlsByBookmarkWith] at hub
        rcases (urlsByBookmark_domain extractUrlsA bookmarks [] id).mp hub with
          ⟨b, hb, hbid, hbne⟩ | habs'
        · exact ⟨b, hb, hbid, hbne⟩
        · exact absurd rfl habs'
      · exact absurd rfl habs
    · rintro ⟨b, hb, hbid, hbne⟩
      left
      have hub : findVal (urlsByBookmarkWith extractUrlsA bookmarks) id ≠ none := by
        rw [urlsByBookmarkWith]
        exact (urlsByBookmark_domain extractUrlsA bookmarks [] id).mpr
          (Or.inl ⟨b, hb, hbid, hbne⟩)
      rcases (findVal_ne_none_iff _ id).mp hub with ⟨e, he, hk⟩
      exact ⟨e, he, hk,
        bookmarkParts_ne_empty extractUrlsA _ hurl bookmarks e he⟩

/-- A fixture bookmark with an expanded URL entity. -/
def cxUrlBk : BirdBookmark :=
  { cxStub with
    urls := [{ url := "https://t.co/q".toList,
               expandedUrl := "https://example.com/a".toList,
               displayUrl := "example.com/a".toList }] }

/-- C6 counterexample: the bookmark's only URL fetch fails, so no
metadata (no title, no description) was recoverable — yet the item is
present in the returned mapping, with the domain-only context line
"[unknown]", where the claim requires it to be absent. -/
theorem claim_C6_counterexample :
    findVal (enrichBookmarksWithUrlsA [cxUrlBk] none (fun _ => NetOut.failed)
      (fun _ => none)) ("1".toList) = some ("[unknown]".toList) := by decide

theorem claim_C6_witness :
    fetchUrlMetadataA (fun _ => NetOut.failed) (fun _ => none) none 5
        ("https://example.com/a".toList) none =
      { url := "https://example.com/a".toList, domain := "unknown".toList,
        title := none, description := none } ∧
    findVal (enrichBookmarksWithUrlsA [cxUrlBk] none (fun _ => NetOut.failed)
      (fun _ => none)) ("1".toList) ≠ none := by
  have h := claim_C6_enricher [cxUrlBk] none (fun _ => NetOut.failed) (fun _ => none)
  refine ⟨h.1 _ 5 rfl (by decide), ?_⟩
  exact (h.2.2 ("1".toList)).mpr ⟨cxUrlBk, by decide, by decide, by decide⟩

/- ## Claim C5: reassembly of packaged sections -/

/-- The reassembly of the packaged output: all section values, in
emission order, concatenated. -/
def sectionConcat (embeds : List DigestEmbed) : Str :=
  (embeds.flatMap (fun e => e.fields.map (fun f => f.2))).flatten

/-- `p` occurs contiguously inside `s`. -/
def SegIn (p s : Str) : Prop := ∃ u v, s = u ++ p ++ v

/-- Executable occurrence test (for concrete refutations). -/
def isPrefB : Str → Str → Bool
  | [], _ => true
  | _ :: _, [] => false
  | c :: p, d :: s => c = d && isPrefB p s

def segInB : Str → Str → Bool
  | p, [] => p.isEmpty
  | p, d :: rest => isPrefB p (d :: rest) || segInB p rest

theorem isPrefB_iff : ∀ (p s : Str), isPrefB p s = true ↔ ∃ v, s = p ++ v := by
  intro p
  induction p with
  | nil =>
    intro s
    simp [isPrefB]
  | cons c p ih =>
    intro s
    cases s with
    | nil =>
      simp [isPrefB]
    | cons d s' =>
      rw [isPrefB]
      constructor
      · intro h
        rw [Bool.and_eq_true] at h
        have hcd : c = d := of_decide_eq_true h.1
        rcases (ih s').mp h.2 with ⟨v, hv⟩
        exact ⟨v, by rw [hcd, hv]; rfl⟩
      · rintro ⟨v, hv⟩
        injection hv with h1 h2
        rw [Bool.and_eq_true]
        exact ⟨decide_eq_true h1.symm, (ih s').mpr ⟨v, h2⟩⟩

theorem segInB_iff : ∀ (s p : Str), segInB p s = true ↔ SegIn p s := by
  intro s
  induction s with
  | nil =>
    intro p
    rw [segInB]
    constructor
    · intro h
      refine ⟨[], [], ?_⟩
      have : p = [] := List.isEmpty_iff.mp h
      rw [this]
      rfl
    · rintro ⟨u, v, huv⟩
      have : p = [] := by
        have := congrArg List.length huv
        simp at this
        exact List.length_eq_zero.mp (by omega)
      rw [this]
      rfl
  | cons d rest ih =>
    intro p
    rw [segInB]
    constructor
    · intro h
      rw [Bool.or_eq_true] at h
      rcases h with h | h
      · rcases (isPrefB_iff p (d :: rest)).mp h with ⟨v, hv⟩
        exact ⟨[], v, by rw [hv]; rfl⟩
      · rcases (ih p).mp h with ⟨u, v, hv⟩
        exact ⟨d :: u, v, by rw [hv]; rfl⟩
    · rintro ⟨u, v, huv⟩
      rw [Bool.or_eq_true]
      cases u with
      | nil =>
        left
        exact (isPrefB_iff p (d :: rest)).mpr ⟨v, by simpa using huv⟩
      | cons u₀ u' =>
        right
        apply (ih p).mpr
        injection huv with h1 h2
        exact ⟨u', v, h2⟩

theorem SegIn.trans_seg {p q s : Str} (h1 : SegIn p q) (h2 : SegIn q s) : SegIn p s := by
  rcases h1 with ⟨a, b, rfl⟩
  rcases h2 with ⟨u, v, rfl⟩
  exact ⟨u ++ a, b ++ v, by simp⟩

theorem SegIn_append_left {p s : Str} (x : Str) (h : SegIn p s) : SegIn p (x ++ s) := by
  rcases h with ⟨u, v, rfl⟩
  exact ⟨x ++ u, v, by simp⟩

theorem SegIn_append_right {p s : Str} (x : Str) (h : SegIn p s) : SegIn p (s ++ x) := by
  rcases h with ⟨u, v, rfl⟩
  exact ⟨u, v ++ x, by simp⟩

theorem SegIn_self (p : Str) : SegIn p p := ⟨[], [], by simp⟩

theorem SegIn_ne_nil {p s : Str} (hp : p ≠ []) (h : SegIn p s) : s ≠ [] := by
  rcases h with ⟨u, v, rfl⟩
  simp [hp]

/-- Both boundary characters of `p` are non-whitespace (so no trim can
bite into an occurrence of `p`). -/
def solidB (p : Str) : Bool :=
  match p.head?, p.getLast? with
  | some c, some d => !isWs c && !isWs d
  | _, _ => false

theorem solidB_ne_nil {p : Str} (h : solidB p = true) : p ≠ [] := by
  intro hp
  subst hp
  simp [solidB] at h

theorem solidB_head {p : Str} (h : solidB p = true) :
    ∃ c p', p = c :: p' ∧ isWs c = false := by
  cases p with
  | nil => simp [solidB] at h
  | cons c p' =>
    refine ⟨c, p', rfl, ?_⟩
    rw [solidB] at h
    cases hl : (c :: p').getLast? with
    | none => simp at hl
    | some d =>
      rw [show (c :: p').head? = some c from rfl, hl] at h
      rw [Bool.and_eq_true] at h
      have h1 := h.1
      simp at h1
      exact h1

theorem solidB_getLast {p : Str} (h : solidB p = true) :
    ∃ p' d, p = p' ++ [d] ∧ isWs d = false := by
  have hne : p ≠ [] := solidB_ne_nil h
  refine ⟨p.dropLast, p.getLast hne, (List.dropLast_append_getLast hne).symm, ?_⟩
  rw [solidB] at h
  cases hh : p.head? with
  | none =>
    rw [hh] at h
    simp at h
  | some c =>
    rw [hh, List.getLast?_eq_getLast p hne] at h
    rw [Bool.and_eq_true] at h
    have h2 := h.2
    simp at h2
    exact h2

theorem SegIn_dropWhile {p s : Str} (hp : ∃ c p', p = c :: p' ∧ isWs c = false)
    (h : SegIn p s) : SegIn p (List.dropWhile isWs s) := by
  rcases h with ⟨u, v, rfl⟩
  rcases hp with ⟨c, p', rfl, hc⟩
  rw [List.append_assoc, List.dropWhile_append]
  split_ifs with hu
  · rw [show (c :: p') ++ v = c :: (p' ++ v) from rfl, List.dropWhile_cons,
      if_neg (by simp [hc])]
    exact ⟨[], v, by simp⟩
  · exact ⟨List.dropWhile isWs u, v, by simp⟩

theorem SegIn_reverse {p s : Str} (h : SegIn p s) : SegIn p.reverse s.reverse := by
  rcases h with ⟨u, v, rfl⟩
  exact ⟨v.reverse, u.reverse, by simp⟩

theorem SegIn_trimStartS {p s : Str} (hsolid : solidB p = true) (h : SegIn p s) :
    SegIn p (trimStartS s) :=
  SegIn_dropWhile (solidB_head hsolid) h

theorem SegIn_trimEndS {p s : Str} (hsolid : solidB p = true) (h : SegIn p s) :
    SegIn p (trimEndS s) := by
  rcases solidB_getLast hsolid with ⟨p', d, hp, hd⟩
  have hrev : ∃ c q', p.reverse = c :: q' ∧ isWs c = false := by
    refine ⟨d, p'.reverse, ?_, hd⟩
    rw [hp]
    simp
  have h2 : SegIn p.reverse (List.dropWhile isWs s.reverse) :=
    SegIn_dropWhile hrev (SegIn_reverse h)
  have h3 := SegIn_reverse h2
  simpa [trimEndS] using h3

theorem SegIn_trimS {p s : Str} (hsolid : solidB p = true) (h : SegIn p s) :
    SegIn p (trimS s) :=
  SegIn_trimEndS hsolid (SegIn_trimStartS hsolid h)

theorem trimS_pos_of_SegIn {p s : Str} (hsolid : solidB p = true) (h : SegIn p s) :
    0 < (trimS s).length := by
  rcases SegIn_trimS hsolid h with ⟨u, v, heq⟩
  have hp : 0 < p.length := List.length_pos.mpr (solidB_ne_nil hsolid)
  rw [heq]
  simp
  omega

theorem trimmed_last_not_ws (a : Str) (ha : trimS a = a) (hne : a ≠ []) :
    ∃ a' d, a = a' ++ [d] ∧ isWs d = false := by
  have h1 : (trimStartS a).length ≤ a.length := trimStartS_length_le a
  have h2 : (trimEndS (trimStartS a)).length ≤ (trimStartS a).length :=
    trimEndS_length_le _
  have hlen : (trimStartS a).length = a.length := by
    have hc := congrArg List.length ha
    rw [trimS] at hc
    omega
  have hstart : trimStartS a = a :=
    List.IsSuffix.eq_of_length (List.dropWhile_suffix isWs) hlen
  have hend : trimEndS a = a := by
    rw [trimS, hstart] at ha
    exact ha
  have hdrop : List.dropWhile isWs a.reverse = a.reverse := by
    rw [← List.reverse_inj]
    rw [trimEndS] at hend
    simpa using hend
  cases hrev : a.reverse with
  | nil =>
    exfalso
    apply hne
    have hc := congrArg List.reverse hrev
    simpa using hc
  | cons c t =>
    refine ⟨t.reverse, c, ?_, ?_⟩
    · have hc := congrArg List.reverse hrev
      simpa using hc
    · rw [hrev, List.dropWhile_cons] at hdrop
      by_cases hc : isWs c
      · rw [if_pos hc] at hdrop
        have hlen2 := congrArg List.length hdrop
        have hle := (List.dropWhile_sublist (l := t) isWs).length_le
        simp at hlen2
        omega
      · simpa using hc

theorem solidB_wrap (s : Str) : solidB ("**".toList ++ s ++ "**".toList) = true := by
  rw [solidB]
  have hh : ("**".toList ++ s ++ "**".toList).head? = some '*' := rfl
  have hl : ("**".toList ++ s ++ "**".toList).getLast? = some '*' := by
    rw [show "**".toList ++ s ++ "**".toList =
      ("**".toList ++ (s ++ ['*'])) ++ ['*'] from by simp]
    exact List.getLast?_concat _
  rw [hh, hl]
  rfl

theorem solidB_dash {a a' : Str} {d : Char} (ha : a = a' ++ [d]) (hd : isWs d = false) :
    solidB ('-' :: ' ' :: a) = true := by
  rw [solidB]
  have hh : ('-' :: ' ' :: a).head? = some '-' := rfl
  have hl : ('-' :: ' ' :: a).getLast? = some d := by
    rw [ha, show '-' :: ' ' :: (a' ++ [d]) = ('-' :: ' ' :: a') ++ [d] from by simp]
    exact List.getLast?_concat _
  rw [hh, hl]
  show (!isWs '-' && !isWs d) = true
  rw [hd]
  rfl

theorem splitNl_ne_nil : ∀ t : Str, splitNl t ≠ [] := by
  intro t
  cases t with
  | nil => simp [splitNl]
  | cons c rest =>
    rw [splitNl]
    split_ifs
    · simp
    · cases splitNl rest <;> simp

theorem splitNl_cons_nl (rest : Str) : splitNl ('\n' :: rest) = [] :: splitNl rest := by
  simp [splitNl]

theorem splitNl_append_nl : ∀ x y : Str, splitNl (x ++ '\n' :: y) = splitNl x ++ splitNl y := by
  intro x
  induction x with
  | nil =>
    intro y
    simp [splitNl]
  | cons c x' ih =>
    intro y
    by_cases hc : c = '\n'
    · subst hc
      rw [show ('\n' :: x') ++ '\n' :: y = '\n' :: (x' ++ '\n' :: y) from rfl]
      simp only [splitNl, if_pos rfl]
      rw [ih]
      rfl
    · rw [show (c :: x') ++ '\n' :: y = c :: (x' ++ '\n' :: y) from rfl]
      simp only [splitNl, if_neg hc]
      rw [ih]
      rcases hx : splitNl x' with _ | ⟨l, ls⟩
      · exact absurd hx (splitNl_ne_nil x')
      · rfl

theorem splitNl_no_nl : ∀ x : Str, ¬('\n' ∈ x) → splitNl x = [x] := by
  intro x
  induction x with
  | nil => intro _; rfl
  | cons c x' ih =>
    intro h
    have hc : c ≠ '\n' := by
      intro hc
      exact h (hc ▸ List.mem_cons_self c x')
    have hx' : ¬('\n' ∈ x') := fun hm => h (List.mem_cons_of_mem _ hm)
    simp only [splitNl, if_neg hc]
    rw [ih hx']

theorem intercalate_cons₂ (l l' : Str) (ls : List Str) :
    List.intercalate ['\n'] (l :: l' :: ls) =
      l ++ '\n' :: List.intercalate ['\n'] (l' :: ls) := by
  simp [List.intercalate, List.intersperse]

theorem splitNl_intercalate :
    ∀ (ls : List Str), ls ≠ [] → (∀ l ∈ ls, ¬('\n' ∈ l)) →
      splitNl (List.intercalate ['\n'] ls) = ls := by
  intro ls
  induction ls with
  | nil => intro h _; exact absurd rfl h
  | cons l ls' ih =>
    intro _ hno
    cases ls' with
    | nil =>
      have : List.intercalate ['\n'] [l] = l := by simp [List.intercalate]
      rw [this, splitNl_no_nl l (hno l (List.mem_cons_self _ _))]
    | cons l' ls'' =>
      rw [intercalate_cons₂, splitNl_append_nl,
        splitNl_no_nl l (hno l (List.mem_cons_self _ _)),
        ih (by simp) (fun a ha => hno a (List.mem_cons_of_mem _ ha))]
      rfl

theorem joinNl_cons (c : Char) (l : Str) (ls : List Str) :
    joinNl ((c :: l) :: ls) = c :: joinNl (l :: ls) := by
  cases ls <;> simp [joinNl, List.intercalate, List.intersperse]

theorem joinNl_splitNl : ∀ t : Str, joinNl (splitNl t) = t := by
  intro t
  induction t with
  | nil => rfl
  | cons c rest ih =>
    by_cases hc : c = '\n'
    · subst hc
      rw [splitNl_cons_nl]
      rcases hx : splitNl rest with _ | ⟨l, ls⟩
      · exact absurd hx (splitNl_ne_nil rest)
      · rw [hx] at ih
        have : joinNl ([] :: l :: ls) = '\n' :: joinNl (l :: ls) := by
          simp [joinNl, List.intercalate, List.intersperse]
        rw [this, ih]
    · simp only [splitNl, if_neg hc]
      rcases hx : splitNl rest with _ | ⟨l, ls⟩
      · exact absurd hx (splitNl_ne_nil rest)
      · rw [hx] at ih
        rw [joinNl_cons, ih]

theorem SegIn_of_mem_intercalate :
    ∀ (ls : List Str) (l : Str), l ∈ ls → SegIn l (List.intercalate ['\n'] ls) := by
  intro ls
  induction ls with
  | nil => intro l h; exact absurd h (List.not_mem_nil l)
  | cons l₀ ls' ih =>
    intro l h
    rcases List.mem_cons.mp h with rfl | h'
    · cases ls' with
      | nil =>
        have : List.intercalate ['\n'] [l] = l := by simp [List.intercalate]
        rw [this]
        exact SegIn_self l
      | cons l' ls'' =>
        rw [intercalate_cons₂]
        exact ⟨[], '\n' :: List.intercalate ['\n'] (l' :: ls''), by simp⟩
    · cases ls' with
      | nil => exact absurd h' (List.not_mem_nil l)
      | cons l' ls'' =>
        rw [intercalate_cons₂]
        have hseg := ih l h'
        have := SegIn_append_left (l₀ ++ ['\n']) hseg
        simpa using this

theorem SegIn_of_mem_splitNl {t ℓ : Str} (h : ℓ ∈ splitNl t) : SegIn ℓ t := by
  have := SegIn_of_mem_intercalate (splitNl t) ℓ h
  rw [show List.intercalate ['\n'] (splitNl t) = joinNl (splitNl t) from rfl,
    joinNl_splitNl] at this
  exact this

theorem SegIn_drop_left {x p s : Str} (h : SegIn (x ++ p) s) : SegIn p s := by
  rcases h with ⟨u, v, rfl⟩
  exact ⟨u ++ x, v, by simp⟩

theorem SegIn_inner {x p y s : Str} (h : SegIn (x ++ p ++ y) s) : SegIn p s := by
  rcases h with ⟨u, v, rfl⟩
  exact ⟨u ++ x, y ++ v, by simp⟩

theorem SegIn_nil_eq {p : Str} (h : SegIn p []) : p = [] := by
  rcases h with ⟨u, v, hv⟩
  have h2 := List.append_eq_nil.mp hv.symm
  exact (List.append_eq_nil.mp h2.1).2

/-- An occurrence inside one member of a list survives flattening. -/
theorem SegIn_flatten {p v : Str} : ∀ (ls : List Str), v ∈ ls → SegIn p v →
    SegIn p ls.flatten := by
  intro ls
  induction ls with
  | nil => intro h _; exact absurd h (List.not_mem_nil v)
  | cons w ws ih =>
    intro hm hseg
    rw [List.flatten_cons]
    rcases List.mem_cons.mp hm with rfl | hm'
    · exact SegIn_append_right _ hseg
    · exact SegIn_append_left _ (ih hm' hseg)

/-- A newline-free prefix cut off by a `'\n'` is one of the split lines. -/
theorem mem_splitNl_of_prefix {ℓ v : Str} (hnl : ¬('\n' ∈ ℓ)) :
    ℓ ∈ splitNl (ℓ ++ '\n' :: v) := by
  rw [splitNl_append_nl, splitNl_no_nl ℓ hnl]
  exact List.mem_append_left _ (List.mem_singleton.mpr rfl)

/-- Every member of a newline-joined block framed by newlines is one of
the split lines of the surrounding text. -/
theorem mem_splitNl_mid {ls : List Str} {d : Str} (x w : Str)
    (hne : ls ≠ []) (hnl : ∀ l ∈ ls, ¬('\n' ∈ l)) (hd : d ∈ ls) :
    d ∈ splitNl (x ++ '\n' :: (List.intercalate ['\n'] ls ++ '\n' :: w)) := by
  rw [splitNl_append_nl, splitNl_append_nl, splitNl_intercalate ls hne hnl]
  exact List.mem_append_right _ (List.mem_append_left _ hd)

/-- Already-normalised actions pass through `normalizeActions` intact. -/
theorem normalizeActions_id (acts : List Str)
    (h : ∀ a ∈ acts, trimS a = a ∧ a ≠ [] ∧ a.length ≤ MAX_ACTION_LENGTH)
    (h5 : acts.length ≤ 5) :
    normalizeActions acts = acts := by
  rw [normalizeActions]
  have hpt : ∀ a ∈ acts, truncateText (trimS a) MAX_ACTION_LENGTH = a := by
    intro a ha
    obtain ⟨ht, _, hle⟩ := h a ha
    rw [ht, truncateText, if_pos hle]
  rw [List.map_congr_left hpt, List.map_id']
  have hfilter : acts.filter (fun a => 0 < a.length) = acts := by
    rw [List.filter_eq_self]
    intro a ha
    have hne := (h a ha).2.1
    simp [List.length_pos, hne]
  rw [hfilter, List.take_of_length_le h5]

/-- `formatSingleItem` with its `let`s inlined. -/
theorem formatSingleItem_explicit (r : BookmarkAnalysis) :
    formatSingleItem r =
      "**".toList ++ r.summary ++ "** - @".toList ++ r.authorUsername ++
        "\n\n".toList ++ truncateText r.keyTakeaway MAX_KEY_TAKEAWAY_LENGTH ++
        "\n\n".toList ++ "Bookmark ID: ".toList ++ r.bookmarkId ++ "\n".toList ++
        "Link to the tweet: ".toList ++
        ("https://x.com/".toList ++ r.authorUsername ++ "/status/".toList ++ r.bookmarkId) ++
        "\n".toList ++ "Suggested actions:\n".toList ++
        List.intercalate ['\n']
          ((if 0 < (normalizeActions r.actions).length then normalizeActions r.actions
            else [defaultActionText]).map (fun a => '-' :: ' ' :: a)) ++
        "\n\n".toList := rfl

/-- The first line of a formatted item, cut off at the first newline. -/
theorem formatSingleItem_summary_decomp (r : BookmarkAnalysis) :
    formatSingleItem r =
      ("**".toList ++ r.summary ++ "** - @".toList ++ r.authorUsername) ++
        '\n' :: ('\n' :: (truncateText r.keyTakeaway MAX_KEY_TAKEAWAY_LENGTH ++
          "\n\n".toList ++ "Bookmark ID: ".toList ++ r.bookmarkId ++ "\n".toList ++
          "Link to the tweet: ".toList ++
          ("https://x.com/".toList ++ r.authorUsername ++ "/status/".toList ++ r.bookmarkId) ++
          "\n".toList ++ "Suggested actions:\n".toList ++
          List.intercalate ['\n']
            ((if 0 < (normalizeActions r.actions).length then normalizeActions r.actions
              else [defaultActionText]).map (fun a => '-' :: ' ' :: a)) ++
          "\n\n".toList)) := by
  rw [formatSingleItem_explicit]
  rw [show "\n\n".toList = '\n' :: '\n' :: ([] : Str) from rfl]
  simp [List.append_assoc]

/-- The suggested-actions block of a formatted item, framed by the
newline ending `Suggested actions:` and the trailing blank line. -/
theorem formatSingleItem_actions_decomp (r : BookmarkAnalysis) :
    formatSingleItem r =
      ("**".toList ++ r.summary ++ "** - @".toList ++ r.authorUsername ++
        "\n\n".toList ++ truncateText r.keyTakeaway MAX_KEY_TAKEAWAY_LENGTH ++
        "\n\n".toList ++ "Bookmark ID: ".toList ++ r.bookmarkId ++ "\n".toList ++
        "Link to the tweet: ".toList ++
        ("https://x.com/".toList ++ r.authorUsername ++ "/status/".toList ++ r.bookmarkId) ++
        "\n".toList ++ "Suggested actions:".toList) ++
      '\n' :: (List.intercalate ['\n']
          ((if 0 < (normalizeActions r.actions).length then normalizeActions r.actions
            else [defaultActionText]).map (fun a => '-' :: ' ' :: a)) ++
        '\n' :: ['\n']) := by
  rw [formatSingleItem_explicit]
  rw [show "Suggested actions:\n".toList = "Suggested actions:".toList ++ ['\n'] from rfl]
  rw [show "\n\n".toList = '\n' :: '\n' :: ([] : Str) from rfl]
  simp [List.append_assoc]

/-- The summary line contains no newline when its variable pieces do
not. -/
theorem noNl_summary_line {s u : Str} (hs : ¬('\n' ∈ s)) (hu : ¬('\n' ∈ u)) :
    ¬('\n' ∈ "**".toList ++ s ++ "** - @".toList ++ u) := by
  intro h
  simp only [List.mem_append] at h
  rcases h with ((h | h) | h) | h
  · exact absurd h (by decide)
  · exact hs h
  · exact absurd h (by decide)
  · exact hu h

theorem summary_line_len (s u : Str) :
    ("**".toList ++ s ++ "** - @".toList ++ u).length = 8 + s.length + u.length := by
  simp only [List.length_append]
  rw [show ("**".toList).length = 2 from rfl, show ("** - @".toList).length = 6 from rfl]
  omega

theorem summary_pat_in_line (s u : Str) :
    SegIn ("**".toList ++ s ++ "**".toList) ("**".toList ++ s ++ "** - @".toList ++ u) :=
  ⟨[], " - @".toList ++ u, by
    rw [show "** - @".toList = "**".toList ++ " - @".toList from rfl]
    simp [List.append_assoc]⟩

/-- Carrying an occurrence of `p` through `splitForField`'s fold state:
either some emitted chunk, or the accumulator, contains it. -/
def ChunkCarry (p : Str) (st : List Str × Str) : Prop :=
  (∃ c ∈ st.1, SegIn p c) ∨ SegIn p st.2

theorem pushChunk_carry {p : Str} (hsolid : solidB p = true) {chunks : List Str}
    {cur : Str} (h : (∃ c ∈ chunks, SegIn p c) ∨ SegIn p cur) :
    ∃ c ∈ pushChunk chunks cur, SegIn p c := by
  rcases h with ⟨c, hc, hseg⟩ | hseg
  · rw [pushChunk]
    split_ifs with ht
    · exact ⟨c, List.mem_append_left _ hc, hseg⟩
    · exact ⟨c, hc, hseg⟩
  · rw [pushChunk, if_pos (trimS_pos_of_SegIn hsolid hseg)]
    exact ⟨trimEndS cur, List.mem_append_right _ (List.mem_singleton.mpr rfl),
      SegIn_trimEndS hsolid hseg⟩

theorem SegIn_cons_of {p s : Str} (c : Char) (h : SegIn p s) : SegIn p (c :: s) := by
  rcases h with ⟨u, v, rfl⟩
  exact ⟨c :: u, v, rfl⟩

theorem mem_pushChunk_left {c : Str} {chunks : List Str} (cur : Str) (hc : c ∈ chunks) :
    c ∈ pushChunk chunks cur := by
  rw [pushChunk]
  split_ifs
  · exact List.mem_append_left _ hc
  · exact hc

theorem splitStep_carry {p : Str} (hsolid : solidB p = true) (m : Nat)
    {st : List Str × Str} (ℓ : Str) (h : ChunkCarry p st) :
    ChunkCarry p (splitStep m st ℓ) := by
  rcases h with ⟨c, hc, hseg⟩ | hseg
  · rw [splitStep]
    have hpc : c ∈ pushChunk st.1 st.2 := mem_pushChunk_left st.2 hc
    split_ifs <;>
      first
        | exact Or.inl ⟨c, hc, hseg⟩
        | exact Or.inl ⟨c, hpc, hseg⟩
        | exact Or.inl ⟨c, List.mem_append_left _ hpc, hseg⟩
  · rw [splitStep]
    have hlen : 0 < st.2.length :=
      List.length_pos.mpr (SegIn_ne_nil (solidB_ne_nil hsolid) hseg)
    rw [if_pos hlen]
    split_ifs <;>
      first
        | exact Or.inr (SegIn_append_right _ hseg)
        | exact Or.inl (pushChunk_carry hsolid (Or.inr hseg))
        | · rcases pushChunk_carry hsolid (Or.inr hseg) with ⟨c, hc, hcs⟩
            exact Or.inl ⟨c, List.mem_append_left _ hc, hcs⟩

theorem splitStep_new {p : Str} (hsolid : solidB p = true) {m : Nat}
    (st : List Str × Str) {ℓ : Str} (hseg : SegIn p ℓ) (hlen : ℓ.length ≤ m) :
    ChunkCarry p (splitStep m st ℓ) := by
  rw [splitStep]
  split_ifs <;>
    first
      | exact Or.inr (SegIn_append_left _ (SegIn_cons_of '\n' hseg))
      | exact Or.inr hseg
      | omega

theorem foldl_splitStep_carry {p : Str} (hsolid : solidB p = true) (m : Nat) :
    ∀ (lines : List Str) (st : List Str × Str), ChunkCarry p st →
      ChunkCarry p (lines.foldl (splitStep m) st) := by
  intro lines
  induction lines with
  | nil => intro st h; exact h
  | cons ℓ rest ih =>
    intro st h
    exact ih _ (splitStep_carry hsolid m ℓ h)

theorem foldl_splitStep_new {p : Str} (hsolid : solidB p = true) {m : Nat} {ℓ : Str}
    (hseg : SegIn p ℓ) (hlen : ℓ.length ≤ m) :
    ∀ (lines : List Str) (st : List Str × Str), ℓ ∈ lines →
      ChunkCarry p (lines.foldl (splitStep m) st) := by
  intro lines
  induction lines with
  | nil => intro st h; exact absurd h (List.not_mem_nil ℓ)
  | cons ℓ' rest ih =>
    intro st h
    rcases List.mem_cons.mp h with rfl | h'
    · exact foldl_splitStep_carry hsolid m rest _ (splitStep_new hsolid st hseg hlen)
    · exact ih _ h'

theorem splitFinish_carry {p : Str} (hsolid : solidB p = true)
    {st : List Str × Str} (text : Str) (m : Nat) (h : ChunkCarry p st) :
    ∃ c ∈ splitFinish st text m, SegIn p c := by
  rcases pushChunk_carry hsolid h with ⟨c, hc, hseg⟩
  rw [splitFinish, if_pos (List.length_pos.mpr (List.ne_nil_of_mem hc))]
  exact ⟨c, hc, hseg⟩

/-- An occurrence of a solid pattern inside a short enough line of the
input survives `splitForField`: it lands intact in one emitted chunk. -/
theorem splitForField_carry {p ℓ text : Str} {m : Nat} (hsolid : solidB p = true)
    (hmem : ℓ ∈ splitNl text) (hseg : SegIn p ℓ) (hlen : ℓ.length ≤ m) :
    ∃ c ∈ splitForField text m, SegIn p c := by
  rw [splitForField]
  split_ifs with hshort
  · exact ⟨text, List.mem_singleton.mpr rfl,
      hseg.trans_seg (SegIn_of_mem_splitNl hmem)⟩
  · exact splitFinish_carry hsolid text m
      (foldl_splitStep_new hsolid hseg hlen (splitNl text) ([], []) hmem)

/-- Every field value held by a build state, in emission order. -/
def allVals (st : BuildState) : List Str :=
  st.finished.flatMap (fun e => e.fields.map (fun f => f.2)) ++
    st.cur.fields.map (fun f => f.2)

theorem allVals_addField (st : BuildState) (n v : Str) :
    allVals (addField st n v) = allVals st ++ [trimS v] := by
  rw [addField]
  split_ifs <;> simp [allVals]

/-- Some already-stored field value contains `p`. -/
def ValCarry (p : Str) (st : BuildState) : Prop :=
  ∃ v ∈ allVals st, SegIn p v

theorem valCarry_addField_of {p : Str} {st : BuildState} (n v : Str)
    (h : ValCarry p st) : ValCarry p (addField st n v) := by
  rcases h with ⟨w, hw, hseg⟩
  exact ⟨w, by rw [allVals_addField]; exact List.mem_append_left _ hw, hseg⟩

theorem valCarry_addField_new {p : Str} (hsolid : solidB p = true)
    (st : BuildState) (n : Str) {v : Str} (h : SegIn p v) :
    ValCarry p (addField st n v) := by
  refine ⟨trimS v, ?_, SegIn_trimS hsolid h⟩
  rw [allVals_addField]
  exact List.mem_append_right _ (List.mem_singleton.mpr rfl)

/-- Carrying an occurrence through the item-accumulation loop: it is in
a stored field value or in the pending `fieldValue`. -/
def FoldCarry (p : Str) (q : BuildState × Str) : Prop :=
  ValCarry p q.1 ∨ SegIn p q.2

theorem foldItems_carry {p : Str} (hsolid : solidB p = true) (n : Str) :
    ∀ (ts : List Str) (q : BuildState × Str), FoldCarry p q →
      FoldCarry p (foldItems n q ts) := by
  intro ts
  induction ts with
  | nil => intro q h; cases q; exact h
  | cons t ts' ih =>
    intro q h
    rcases q with ⟨st, fv⟩
    rw [foldItems]
    split_ifs with h1 h2
    · refine ih _ ?_
      rcases h with hval | hseg
      · exact Or.inl (valCarry_addField_of n fv hval)
      · exact Or.inl (valCarry_addField_new hsolid st n hseg)
    · refine ih _ ?_
      rcases h with hval | hseg
      · exact Or.inl hval
      · exact absurd (SegIn_nil_eq (List.length_eq_zero.mp
            (show fv.length = 0 by omega) ▸ hseg)) (solidB_ne_nil hsolid)
    · refine ih _ ?_
      rcases h with hval | hseg
      · exact Or.inl hval
      · exact Or.inr (SegIn_append_right _ hseg)

theorem foldItems_new {p : Str} (hsolid : solidB p = true) (n : Str) {t : Str}
    (hseg : SegIn p t) :
    ∀ (ts : List Str) (q : BuildState × Str), t ∈ ts →
      FoldCarry p (foldItems n q ts) := by
  intro ts
  induction ts with
  | nil => intro q h; exact absurd h (List.not_mem_nil t)
  | cons t' ts' ih =>
    intro q h
    rcases q with ⟨st, fv⟩
    rcases List.mem_cons.mp h with rfl | h'
    · rw [foldItems]
      split_ifs with h1 h2
      · exact foldItems_carry hsolid n ts' _ (Or.inr hseg)
      · exact foldItems_carry hsolid n ts' _ (Or.inr hseg)
      · exact foldItems_carry hsolid n ts' _ (Or.inr (SegIn_append_left _ hseg))
    · rw [foldItems]
      split_ifs with h1 h2 <;> exact ih _ h'

theorem groupFlush_carry {p : Str} (hsolid : solidB p = true)
    {q : BuildState × Str} (n : Str) (h : FoldCarry p q) :
    ValCarry p (groupFlush q n) := by
  rw [groupFlush]
  split_ifs with h1
  · rcases h with hval | hseg
    · exact valCarry_addField_of n q.2 hval
    · exact valCarry_addField_new hsolid q.1 n hseg
  · rcases h with hval | hseg
    · exact hval
    · exact absurd (SegIn_nil_eq (List.length_eq_zero.mp
          (show q.2.length = 0 by omega) ▸ hseg)) (solidB_ne_nil hsolid)

theorem processGroup_carry {p : Str} (hsolid : solidB p = true)
    {st : BuildState} (g : CategoryGroup) (h : ValCarry p st) :
    ValCarry p (processGroup st g) := by
  rw [processGroup]
  split_ifs with h1
  · exact h
  · exact groupFlush_carry hsolid _
      (foldItems_carry hsolid _ _ _ (Or.inl h))

theorem processGroup_new {p : Str} (hsolid : solidB p = true)
    (st : BuildState) {g : CategoryGroup} {c : Str}
    (hc : c ∈ g.items.flatMap
      (fun it => splitForField (formatSingleItem it) MAX_FIELD_LENGTH))
    (hseg : SegIn p c) : ValCarry p (processGroup st g) := by
  rw [processGroup]
  have hne : g.items.length ≠ 0 := by
    rcases List.mem_flatMap.mp hc with ⟨it, hit, _⟩
    exact fun h0 => (List.length_eq_zero.mp h0 ▸ List.not_mem_nil it) hit
  rw [if_neg hne]
  exact groupFlush_carry hsolid _ (foldItems_new hsolid _ hseg _ _ hc)

theorem foldl_processGroup_carry {p : Str} (hsolid : solidB p = true) :
    ∀ (gs : List CategoryGroup) (st : BuildState), ValCarry p st →
      ValCarry p (gs.foldl processGroup st) := by
  intro gs
  induction gs with
  | nil => intro st h; exact h
  | cons g gs' ih =>
    intro st h
    exact ih _ (processGroup_carry hsolid g h)

theorem foldl_processGroup_new {p : Str} (hsolid : solidB p = true)
    {g : CategoryGroup} {c : Str}
    (hc : c ∈ g.items.flatMap
      (fun it => splitForField (formatSingleItem it) MAX_FIELD_LENGTH))
    (hseg : SegIn p c) :
    ∀ (gs : List CategoryGroup) (st : BuildState), g ∈ gs →
      ValCarry p (gs.foldl processGroup st) := by
  intro gs
  induction gs with
  | nil => intro st h; exact absurd h (List.not_mem_nil g)
  | cons g' gs' ih =>
    intro st h
    rcases List.mem_cons.mp h with rfl | h'
    · exact foldl_processGroup_carry hsolid gs' _ (processGroup_new hsolid st hc hseg)
    · exact ih _ h'

theorem sectionConcat_finish (st : BuildState) :
    sectionConcat (finishEmbeds st) = (allVals st).flatten := by
  simp [sectionConcat, finishEmbeds, allVals]

theorem valCarry_sectionConcat {p : Str} {st : BuildState} (h : ValCarry p st) :
    SegIn p (sectionConcat (finishEmbeds st)) := by
  rcases h with ⟨v, hv, hseg⟩
  rw [sectionConcat_finish]
  exact SegIn_flatten _ hv hseg

theorem mem_ALL_CATEGORIES (c : BookmarkCategory) : c ∈ ALL_CATEGORIES := by
  cases c <;> decide

theorem exists_group_of_mem (analyses : List BookmarkAnalysis) {r : BookmarkAnalysis}
    (hr : r ∈ analyses) : ∃ g ∈ groupByCategory analyses, r ∈ g.items := by
  refine ⟨⟨r.category, analyses.filter (fun a => a.category == r.category)⟩, ?_, ?_⟩
  · exact (groupByCategory_perm analyses).mem_iff.mpr
      (List.mem_map.mpr ⟨r.category, mem_ALL_CATEGORIES _, rfl⟩)
  · exact List.mem_filter.mpr ⟨hr, by simp⟩

/-- C5 (amended): for every analysed result whose summary and username
are newline-free and fit a single field, and whose suggested actions
are already normalised (trimmed, nonempty, at most five, each at most
180 characters and newline-free), the concatenation of all section
values emitted by the packager, in emission order, contains that
result's summary and each of its suggested actions verbatim. -/
theorem claim_C5_roundtrip (analyses : List BookmarkAnalysis) (stats : DigestStats)
    (r : BookmarkAnalysis) (hr : r ∈ analyses)
    (hsnl : ¬('\n' ∈ r.summary)) (hunl : ¬('\n' ∈ r.authorUsername))
    (hslen : 8 + r.summary.length + r.authorUsername.length ≤ MAX_FIELD_LENGTH)
    (hane : r.actions ≠ []) (ha5 : r.actions.length ≤ 5)
    (hgood : ∀ a ∈ r.actions,
      trimS a = a ∧ a ≠ [] ∧ a.length ≤ MAX_ACTION_LENGTH ∧ ¬('\n' ∈ a)) :
    SegIn r.summary (sectionConcat (buildDigestEmbeds analyses stats)) ∧
      ∀ a ∈ r.actions, SegIn a (sectionConcat (buildDigestEmbeds analyses stats)) := by
  have hnz : ¬(analyses.length = 0) := fun h0 =>
    (List.length_eq_zero.mp h0 ▸ List.not_mem_nil r) hr
  rw [buildDigestEmbeds, if_neg hnz]
  rcases exists_group_of_mem analyses hr with ⟨g, hg, hrg⟩
  have hnorm : normalizeActions r.actions = r.actions :=
    normalizeActions_id r.actions
      (fun a ha => ⟨(hgood a ha).1, (hgood a ha).2.1, (hgood a ha).2.2.1⟩) ha5
  have hsel : (if 0 < (normalizeActions r.actions).length then normalizeActions r.actions
      else [defaultActionText]) = r.actions := by
    rw [hnorm, if_pos (List.length_pos.mpr hane)]
  constructor
  · have hsolid := solidB_wrap r.summary
    have hL0 : ("**".toList ++ r.summary ++ "** - @".toList ++ r.authorUsername)
        ∈ splitNl (formatSingleItem r) := by
      rw [formatSingleItem_summary_decomp r]
      exact mem_splitNl_of_prefix (noNl_summary_line hsnl hunl)
    have hlin : ("**".toList ++ r.summary ++ "** - @".toList ++
        r.authorUsername).length ≤ MAX_FIELD_LENGTH := by
      rw [summary_line_len]
      exact hslen
    rcases splitForField_carry hsolid hL0
      (summary_pat_in_line r.summary r.authorUsername) hlin with ⟨c, hc, hcs⟩
    have hcmem : c ∈ g.items.flatMap
        (fun it => splitForField (formatSingleItem it) MAX_FIELD_LENGTH) :=
      List.mem_flatMap.mpr ⟨r, hrg, hc⟩
    exact SegIn_inner (valCarry_sectionConcat
      (foldl_processGroup_new hsolid hcmem hcs (groupByCategory analyses)
        (initState stats) hg))
  · intro a ha
    obtain ⟨hta, hnea, hlea, hnla⟩ := hgood a ha
    obtain ⟨a', d, had, hdw⟩ := trimmed_last_not_ws a hta hnea
    have hsolid : solidB ('-' :: ' ' :: a) = true := solidB_dash had hdw
    have hdl : ('-' :: ' ' :: a) ∈ splitNl (formatSingleItem r) := by
      rw [formatSingleItem_actions_decomp r, hsel]
      refine mem_splitNl_mid _ _ ?_ ?_ ?_
      · simp [hane]
      · intro l hl
        rcases List.mem_map.mp hl with ⟨b, hb, rfl⟩
        intro hmem
        simp only [List.mem_cons] at hmem
        rcases hmem with h | h | h
        · exact absurd h (by decide)
        · exact absurd h (by decide)
        · exact (hgood b hb).2.2.2 h
      · exact List.mem_map.mpr ⟨a, ha, rfl⟩
    have hlin : ('-' :: ' ' :: a).length ≤ MAX_FIELD_LENGTH := by
      have h1 : MAX_ACTION_LENGTH = 180 := rfl
      have h2 : MAX_FIELD_LENGTH = 1024 := rfl
      simp only [List.length_cons]
      omega
    rcases splitForField_carry hsolid hdl (SegIn_self _) hlin with ⟨c, hc, hcs⟩
    have hcmem : c ∈ g.items.flatMap
        (fun it => splitForField (formatSingleItem it) MAX_FIELD_LENGTH) :=
      List.mem_flatMap.mpr ⟨r, hrg, hc⟩
    have hfin := valCarry_sectionConcat
      (foldl_processGroup_new hsolid hcmem hcs (groupByCategory analyses)
        (initState stats) hg)
    exact SegIn_drop_left (x := ['-', ' ']) hfin

/-- A suggested action longer than `MAX_ACTION_LENGTH` (181 repetitions
of `x`). -/
def cxLongAction : Str := List.replicate 181 'x'

def cxAnalysisLong : BookmarkAnalysis :=
  { bookmarkId := "9".toList
    category := .AI
    isActionable := true
    summary := "s".toList
    keyTakeaway := "k".toList
    actions := [cxLongAction]
    author := "A".toList
    authorUsername := "a".toList
    text := "t".toList
    likeCount := 0
    retweetCount := 0
    createdAt := [] }

set_option maxRecDepth 40000 in
/-- C5 counterexample: a 181-character suggested action is truncated by
`truncateText` before packaging, so its text does not occur anywhere in
the concatenation of the emitted section values — reassembly does not
reconstruct every result's suggested actions without loss. -/
theorem claim_C5_counterexample :
    cxLongAction ∈ cxAnalysisLong.actions ∧
      ¬ SegIn cxLongAction
        (sectionConcat (buildDigestEmbeds [cxAnalysisLong] { newCount := 1 })) := by
  refine ⟨by decide, fun h => ?_⟩
  have hb : segInB cxLongAction
      (sectionConcat (buildDigestEmbeds [cxAnalysisLong] { newCount := 1 })) = true :=
    (segInB_iff _ _).mpr h
  exact absurd hb (by decide)

def cxC5 : BookmarkAnalysis :=
  { bookmarkId := "7".toList
    category := .tools
    isActionable := true
    summary := "Great tip".toList
    keyTakeaway := "k".toList
    actions := ["Read it".toList]
    author := "A".toList
    authorUsername := "alice".toList
    text := "t".toList
    likeCount := 0
    retweetCount := 0
    createdAt := [] }

set_option maxRecDepth 40000 in
theorem claim_C5_witness :
    cxC5 ∈ [cxC5] ∧
      (SegIn cxC5.summary (sectionConcat (buildDigestEmbeds [cxC5] { newCount := 1 })) ∧
        ∀ a ∈ cxC5.actions,
          SegIn a (sectionConcat (buildDigestEmbeds [cxC5] { newCount := 1 }))) :=
  ⟨by decide, claim_C5_roundtrip [cxC5] { newCount := 1 } cxC5 (by decide) (by decide)
    (by decide) (by decide) (by decide) (by decide) (by decide)⟩
